import Mathlib

/-
Verification development for the heesches repository: a shallow embedding of
the polyiamond Heesch-number engine (triangular grid, shape transformations,
placement enumeration, SAT-based corona solving and the corona driver),
together with theorems settling the specification claims.

Numeric model. The Python code computes lattice isometries by a round trip
through Cartesian coordinates built from h = sqrt 3 / 2. Every Cartesian
point that arises in that code (cell centers, lattice vertices, their images
under the 60 degree rotation and the reflections) has the exact form
(a, b * sqrt 3) with a and b rational, and the squared distances the code
compares are rational as well. We therefore embed a Cartesian point as the
rational pair (a, b), giving the exact real-number semantics of the
floating-point source; the comparisons the code performs are never close
enough to a tie for the floating-point rounding to matter.
-/

set_option maxHeartbeats 1000000

/-- A cell of the triangular grid, as in grid.py: an integer pair; the
triangle points up when x + y is even and down when x + y is odd. -/
structure Cell where
  x : ℤ
  y : ℤ
deriving DecidableEq, Repr

/-- Up-pointing triangle test, from Cell.is_up. -/
def Cell.IsUp (c : Cell) : Prop := (c.x + c.y) % 2 = 0

instance (c : Cell) : Decidable c.IsUp := by unfold Cell.IsUp; infer_instance

/-- The three edge-neighbors of a cell, from Cell.neighbors. -/
def Cell.neighbors (c : Cell) : List Cell :=
  if c.IsUp then
    [⟨c.x - 1, c.y⟩, ⟨c.x + 1, c.y⟩, ⟨c.x, c.y - 1⟩]
  else
    [⟨c.x - 1, c.y⟩, ⟨c.x + 1, c.y⟩, ⟨c.x, c.y + 1⟩]

/-- Boundary of a finite cell set, from TriangularGrid.boundary: the cells
that are a neighbor of a member of the set and are not themselves members. -/
def TriangularGrid.boundary (cells : Finset Cell) : Finset Cell :=
  cells.biUnion (fun c => c.neighbors.toFinset.filter (fun n => n ∉ cells))

/-- Translation of a cell set, from TriangularGrid.translate. -/
def TriangularGrid.translate (cells : Finset Cell) (dx dy : ℤ) : Finset Cell :=
  cells.image (fun c => ⟨c.x + dx, c.y + dy⟩)

/-- Minimum x coordinate of a cell set (0 for the empty set, which the
source never queries). -/
def minXc (s : Finset Cell) : ℤ := ((s.image Cell.x).min).untop' 0

/-- Minimum y coordinate of a cell set. -/
def minYc (s : Finset Cell) : ℤ := ((s.image Cell.y).min).untop' 0

/-- Canonical translate of a cell set, from TriangularGrid.canonical_position:
translate by the negated minima, with the x minuend decremented by one first
when min x + min y is odd so that the translation has even coordinate sum. -/
def canonicalPosition (s : Finset Cell) : Finset Cell :=
  if s.Nonempty then
    TriangularGrid.translate s
      (-(if (minXc s + minYc s) % 2 ≠ 0 then minXc s - 1 else minXc s)) (-(minYc s))
  else s

/-- Arithmetic characterization of the neighbor relation. -/
theorem mem_neighbors_iff (a c : Cell) :
    a ∈ c.neighbors ↔
      (a.y = c.y ∧ (a.x = c.x - 1 ∨ a.x = c.x + 1)) ∨
      (a.x = c.x ∧ a.y = c.y - 1 ∧ (c.x + c.y) % 2 = 0) ∨
      (a.x = c.x ∧ a.y = c.y + 1 ∧ (c.x + c.y) % 2 ≠ 0) := by
  rcases a with ⟨ax, ay⟩
  rcases c with ⟨cx, cy⟩
  unfold Cell.neighbors
  split_ifs with h <;>
    (unfold Cell.IsUp at h; dsimp only at h ⊢;
     simp only [List.mem_cons, List.not_mem_nil, or_false, Cell.mk.injEq];
     omega)

/-- Neighborhood is symmetric: edge-adjacency does not depend on which
endpoint is asked. -/
theorem neighbors_symm (a c : Cell) : a ∈ c.neighbors → c ∈ a.neighbors := by
  rw [mem_neighbors_iff, mem_neighbors_iff]
  omega

/-- Membership in the computed boundary matches the specification set
comprehension, using neighbor symmetry. -/
theorem mem_boundary_iff (s : Finset Cell) (c : Cell) :
    c ∈ TriangularGrid.boundary s ↔ c ∉ s ∧ ∃ n ∈ c.neighbors, n ∈ s := by
  unfold TriangularGrid.boundary
  simp only [Finset.mem_biUnion, Finset.mem_filter, List.mem_toFinset]
  constructor
  · rintro ⟨a, ha, hc, hns⟩
    exact ⟨hns, a, neighbors_symm c a hc, ha⟩
  · rintro ⟨hns, n, hn, hns2⟩
    exact ⟨n, hns2, neighbors_symm n c hn, hns⟩

/-- A nonempty cell set has a nonempty boundary: the right neighbor of a
cell of maximal x coordinate is outside the set. -/
theorem boundary_nonempty (s : Finset Cell) (hs : s.Nonempty) :
    (TriangularGrid.boundary s).Nonempty := by
  obtain ⟨c, hc, hmax⟩ := Finset.exists_max_image s Cell.x hs
  refine ⟨⟨c.x + 1, c.y⟩, ?_⟩
  rw [mem_boundary_iff]
  constructor
  · intro hmem
    have := hmax _ hmem
    dsimp only at this
    omega
  · refine ⟨c, ?_, hc⟩
    rw [mem_neighbors_iff]
    dsimp only
    omega

/-- Membership in a translated cell set. -/
theorem mem_translate (s : Finset Cell) (dx dy : ℤ) (c : Cell) :
    c ∈ TriangularGrid.translate s dx dy ↔ ∃ a ∈ s, c = ⟨a.x + dx, a.y + dy⟩ := by
  unfold TriangularGrid.translate
  simp only [Finset.mem_image]
  constructor
  · rintro ⟨a, ha, rfl⟩; exact ⟨a, ha, rfl⟩
  · rintro ⟨a, ha, rfl⟩; exact ⟨a, ha, rfl⟩

/-- The translation map on cells is injective. -/
theorem translate_injective (dx dy : ℤ) :
    Function.Injective (fun c : Cell => (⟨c.x + dx, c.y + dy⟩ : Cell)) := by
  intro a b hab
  simp only [Cell.mk.injEq] at hab
  rcases a with ⟨ax, ay⟩; rcases b with ⟨bx, by'⟩
  simp only [Cell.mk.injEq]
  dsimp only at hab
  omega

/-- Translation preserves cardinality. -/
theorem card_translate (s : Finset Cell) (dx dy : ℤ) :
    (TriangularGrid.translate s dx dy).card = s.card :=
  Finset.card_image_of_injective s (translate_injective dx dy)

/-- Translations compose additively. -/
theorem tg_translate_comp (s : Finset Cell) (a b u v : ℤ) :
    TriangularGrid.translate (TriangularGrid.translate s a b) u v =
      TriangularGrid.translate s (a + u) (b + v) := by
  unfold TriangularGrid.translate
  rw [Finset.image_image]
  apply Finset.image_congr
  intro c _
  simp only [Function.comp_apply, Cell.mk.injEq]
  constructor <;> ring

/-- Translating by zero changes nothing. -/
theorem tg_translate_id (s : Finset Cell) : TriangularGrid.translate s 0 0 = s := by
  unfold TriangularGrid.translate
  have : (fun c : Cell => (⟨c.x + 0, c.y + 0⟩ : Cell)) = id := by
    funext c; rcases c with ⟨cx, cy⟩; simp
  rw [this, Finset.image_id]

/-- A translated set is nonempty exactly when the original is. -/
theorem translate_nonempty (s : Finset Cell) (dx dy : ℤ) :
    (TriangularGrid.translate s dx dy).Nonempty ↔ s.Nonempty := by
  unfold TriangularGrid.translate
  exact Finset.image_nonempty

/-- For a nonempty set the minimum x is the primed minimum of the image. -/
theorem minXc_eq (s : Finset Cell) (hs : s.Nonempty) :
    minXc s = (s.image Cell.x).min' (hs.image _) := by
  unfold minXc
  rw [← Finset.coe_min' (hs.image _)]
  rfl

/-- For a nonempty set the minimum y is the primed minimum of the image. -/
theorem minYc_eq (s : Finset Cell) (hs : s.Nonempty) :
    minYc s = (s.image Cell.y).min' (hs.image _) := by
  unfold minYc
  rw [← Finset.coe_min' (hs.image _)]
  rfl

/-- The minimum x of a translate. -/
theorem minXc_translate (s : Finset Cell) (hs : s.Nonempty) (dx dy : ℤ) :
    minXc (TriangularGrid.translate s dx dy) = minXc s + dx := by
  have ht : (TriangularGrid.translate s dx dy).Nonempty := (translate_nonempty s dx dy).2 hs
  rw [minXc_eq _ ht, minXc_eq _ hs]
  have himg : (TriangularGrid.translate s dx dy).image Cell.x
      = (s.image Cell.x).image (fun t => t + dx) := by
    unfold TriangularGrid.translate
    rw [Finset.image_image, Finset.image_image]
    rfl
  have hmono : Monotone (fun t : ℤ => t + dx) := fun a b hab => by dsimp only; omega
  have := Finset.min'_image hmono (s.image Cell.x)
    (by rw [← himg]; exact ht.image _)
  calc ((TriangularGrid.translate s dx dy).image Cell.x).min' _
      = (((s.image Cell.x).image (fun t => t + dx)).min' (by rw [← himg]; exact ht.image _)) := by
        congr 1
    _ = (s.image Cell.x).min' _ + dx := this

/-- The minimum y of a translate. -/
theorem minYc_translate (s : Finset Cell) (hs : s.Nonempty) (dx dy : ℤ) :
    minYc (TriangularGrid.translate s dx dy) = minYc s + dy := by
  have ht : (TriangularGrid.translate s dx dy).Nonempty := (translate_nonempty s dx dy).2 hs
  rw [minYc_eq _ ht, minYc_eq _ hs]
  have himg : (TriangularGrid.translate s dx dy).image Cell.y
      = (s.image Cell.y).image (fun t => t + dy) := by
    unfold TriangularGrid.translate
    rw [Finset.image_image, Finset.image_image]
    rfl
  have hmono : Monotone (fun t : ℤ => t + dy) := fun a b hab => by dsimp only; omega
  have := Finset.min'_image hmono (s.image Cell.y)
    (by rw [← himg]; exact ht.image _)
  calc ((TriangularGrid.translate s dx dy).image Cell.y).min' _
      = (((s.image Cell.y).image (fun t => t + dy)).min' (by rw [← himg]; exact ht.image _)) := by
        congr 1
    _ = (s.image Cell.y).min' _ + dy := this

/-- The canonical position of a nonempty set written as a single translate. -/
theorem canonicalPosition_spec (s : Finset Cell) (hs : s.Nonempty) :
    canonicalPosition s =
      TriangularGrid.translate s
        (if (minXc s + minYc s) % 2 ≠ 0 then -(minXc s) + 1 else -(minXc s))
        (-(minYc s)) := by
  unfold canonicalPosition
  rw [if_pos hs]
  split_ifs with h
  · congr 1; ring
  · rfl

/-- Canonicalization is a translation with even coordinate sum. -/
theorem canonicalPosition_even_translate (s : Finset Cell) :
    ∃ dx dy : ℤ, 2 ∣ (dx + dy) ∧ canonicalPosition s = TriangularGrid.translate s dx dy := by
  by_cases hs : s.Nonempty
  · rw [canonicalPosition_spec s hs]
    refine ⟨_, -(minYc s), ?_, rfl⟩
    split_ifs with h <;> omega
  · refine ⟨0, 0, by omega, ?_⟩
    rw [tg_translate_id s]
    unfold canonicalPosition
    rw [if_neg hs]

/-- Canonicalization is invariant under translations of even coordinate sum. -/
theorem canonicalPosition_translate (s : Finset Cell) (dx dy : ℤ) (h2 : 2 ∣ (dx + dy)) :
    canonicalPosition (TriangularGrid.translate s dx dy) = canonicalPosition s := by
  by_cases hs : s.Nonempty
  · have ht : (TriangularGrid.translate s dx dy).Nonempty := (translate_nonempty s dx dy).2 hs
    rw [canonicalPosition_spec _ ht, canonicalPosition_spec _ hs]
    rw [minXc_translate s hs dx dy, minYc_translate s hs dx dy, tg_translate_comp]
    have hpar : ((minXc s + dx) + (minYc s + dy)) % 2 = (minXc s + minYc s) % 2 := by omega
    rw [hpar]
    split_ifs with h <;> congr 1 <;> omega
  · have ht : ¬ (TriangularGrid.translate s dx dy).Nonempty := by
      rw [translate_nonempty]; exact hs
    unfold canonicalPosition
    rw [if_neg hs, if_neg ht]
    rw [Finset.not_nonempty_iff_eq_empty] at hs
    subst hs
    unfold TriangularGrid.translate
    exact Finset.image_empty _

/-- Canonicalization preserves nonemptiness. -/
theorem canonicalPosition_nonempty (s : Finset Cell) (hs : s.Nonempty) :
    (canonicalPosition s).Nonempty := by
  obtain ⟨dx, dy, _, heq⟩ := canonicalPosition_even_translate s
  rw [heq, translate_nonempty]; exact hs

/-- Canonicalization preserves cardinality. -/
theorem canonicalPosition_card (s : Finset Cell) : (canonicalPosition s).card = s.card := by
  obtain ⟨dx, dy, _, heq⟩ := canonicalPosition_even_translate s
  rw [heq, card_translate]

/-- Canonicalization is idempotent. -/
theorem canonicalPosition_idem (s : Finset Cell) :
    canonicalPosition (canonicalPosition s) = canonicalPosition s := by
  obtain ⟨dx, dy, h2, heq⟩ := canonicalPosition_even_translate s
  conv_lhs => rw [heq]
  rw [canonicalPosition_translate s dx dy h2]

/-- The minimum x coordinate after canonicalization: 0 in the even case and
1 in the odd case. -/
theorem minXc_canonicalPosition (s : Finset Cell) (hs : s.Nonempty) :
    minXc (canonicalPosition s) = (if (minXc s + minYc s) % 2 ≠ 0 then 1 else 0) := by
  rw [canonicalPosition_spec s hs]
  rw [minXc_translate s hs]
  split_ifs <;> omega

/-- Cartesian center of a cell, from TriangularGrid.cell_to_cartesian. A
pair (a, b) stands for the real point (a, b * sqrt 3); with h = sqrt 3 / 2
the source values y*h + h/3 and y*h + 2h/3 embed as (3y+1)/6 and (3y+2)/6. -/
def cellToCartesian (c : Cell) : ℚ × ℚ :=
  if c.IsUp then ((c.x : ℚ) / 2, (3 * (c.y : ℚ) + 1) / 6)
  else ((c.x : ℚ) / 2, (3 * (c.y : ℚ) + 2) / 6)

/-- Round to nearest with ties to even, the semantics of the Python round
builtin used for the column estimate. -/
def pythonRound (q : ℚ) : ℤ :=
  if q - ⌊q⌋ < 1/2 then ⌊q⌋
  else if (1 : ℚ)/2 < q - ⌊q⌋ then ⌊q⌋ + 1
  else if 2 ∣ ⌊q⌋ then ⌊q⌋ else ⌊q⌋ + 1

/-- Squared Euclidean distance between embedded points: for real points
(a1, b1 * sqrt 3) and (a2, b2 * sqrt 3) it equals (a1-a2)^2 + 3*(b1-b2)^2,
which is rational. -/
def distSq (p q : ℚ × ℚ) : ℚ := (p.1 - q.1) ^ 2 + 3 * (p.2 - q.2) ^ 2

/-- The search offsets (dr, dc) with dr and dc in range(-3, 4), dr in the
outer loop, from TriangularGrid.cartesian_to_cell. -/
def searchOffsets : List (ℤ × ℤ) :=
  (List.range 7).flatMap (fun dr => (List.range 7).map (fun dc => ((dr : ℤ) - 3, (dc : ℤ) - 3)))

/-- One comparison step of the nearest-cell search: keep the earlier
candidate unless the new squared distance is strictly smaller. -/
def snapStep (p : ℚ × ℚ) (colEst rowEst : ℤ) (best : Option (Cell × ℚ)) (d : ℤ × ℤ) :
    Option (Cell × ℚ) :=
  match best with
  | none => some (⟨colEst + d.2, rowEst + d.1⟩, distSq (cellToCartesian ⟨colEst + d.2, rowEst + d.1⟩) p)
  | some (b, bd) =>
      if distSq (cellToCartesian ⟨colEst + d.2, rowEst + d.1⟩) p < bd then
        some (⟨colEst + d.2, rowEst + d.1⟩, distSq (cellToCartesian ⟨colEst + d.2, rowEst + d.1⟩) p)
      else some (b, bd)

/-- Nearest-cell snap from TriangularGrid.cartesian_to_cell: estimate the
row and column, then scan the 7 x 7 window keeping the first strict minimum
of the squared distance. The fallback cell is unreachable because the
window is never empty. -/
def cartesianToCell (p : ℚ × ℚ) : Cell :=
  match searchOffsets.foldl (snapStep p (pythonRound (2 * p.1)) ⌊2 * p.2⌋) none with
  | some (c, _) => c
  | none => ⟨0, 0⟩

/-- Vertex of a cell, from Polyiamond._get_vertex; vertex heights y*h and
(y+1)*h embed as y/2 and (y+1)/2. -/
def getVertex (c : Cell) (i : ℕ) : ℚ × ℚ :=
  if c.IsUp then
    if i = 0 then ((c.x : ℚ) / 2 - 1/2, (c.y : ℚ) / 2)
    else if i = 1 then ((c.x : ℚ) / 2 + 1/2, (c.y : ℚ) / 2)
    else ((c.x : ℚ) / 2, ((c.y : ℚ) + 1) / 2)
  else
    if i = 0 then ((c.x : ℚ) / 2 - 1/2, ((c.y : ℚ) + 1) / 2)
    else if i = 1 then ((c.x : ℚ) / 2 + 1/2, ((c.y : ℚ) + 1) / 2)
    else ((c.x : ℚ) / 2, (c.y : ℚ) / 2)

/-- Rigid transform around a vertex, from Polyiamond._apply_transform_around_vertex. -/
def applyTransformAroundVertex (f : ℚ × ℚ → ℚ × ℚ) (v : ℚ × ℚ) (s : Finset Cell) : Finset Cell :=
  s.image (fun c =>
    cartesianToCell
      (((f ((cellToCartesian c).1 - v.1, (cellToCartesian c).2 - v.2)).1 + v.1,
        (f ((cellToCartesian c).1 - v.1, (cellToCartesian c).2 - v.2)).2 + v.2)))

/-- The 60 degree clockwise rotation on embedded offsets: the real map
sends (dx, dy) to (dx/2 + dy*sqrt3/2, -dx*sqrt3/2 + dy/2); with
dy = d2 * sqrt 3 this is (dx/2 + 3*d2/2, (d2 - dx)/2 * sqrt 3). -/
def rotTransform (d : ℚ × ℚ) : ℚ × ℚ := (d.1 / 2 + 3 * d.2 / 2, (d.2 - d.1) / 2)

/-- The reflect_x transform (dx, dy) to (dx, -dy). -/
def reflTransform (d : ℚ × ℚ) : ℚ × ℚ := (d.1, -d.2)

/-- The lexicographically least cell of a set, the Python min with key
(x, y): minimal x, and minimal y among the cells of minimal x; junk on the
empty set, which the source never passes. -/
def firstCell (s : Finset Cell) : Cell :=
  ⟨minXc s, minYc (s.filter (fun c => c.x = minXc s))⟩

/-- A polyiamond value, from polyiamond.py: just a cell set. The Python
constructor canonicalizes the set and checks nothing else. -/
structure Polyiamond where
  cells : Finset Cell
deriving DecidableEq

/-- The constructor Polyiamond.__init__: canonicalize the given cells. -/
def Polyiamond.ofCells (s : Finset Cell) : Polyiamond := ⟨canonicalPosition s⟩

/-- Polyiamond.translate: shift the cells without re-canonicalizing. -/
def Polyiamond.translate (p : Polyiamond) (dx dy : ℤ) : Polyiamond :=
  ⟨TriangularGrid.translate p.cells dx dy⟩

/-- Polyiamond.size. -/
def Polyiamond.size (p : Polyiamond) : ℕ := p.cells.card

/-- One expansion step of the breadth search in Polyiamond.is_connected:
adjoin the members of the set adjacent to an already visited cell. -/
def connStep (s vis : Finset Cell) : Finset Cell :=
  vis ∪ s.filter (fun c => ∃ v ∈ vis, c ∈ v.neighbors)

/-- Iterated expansion. -/
def connIter (s : Finset Cell) : ℕ → Finset Cell → Finset Cell
  | 0, vis => vis
  | n + 1, vis => connIter s n (connStep s vis)

/-- Polyiamond.is_connected: the breadth search from an arbitrary member
reaches every member; the search stabilizes within card steps. -/
def Polyiamond.isConnected (p : Polyiamond) : Bool :=
  if p.cells.Nonempty then
    decide ((connIter p.cells p.cells.card {firstCell p.cells}).card = p.cells.card)
  else true

/-- Polyiamond.rotate_60: rotate around the bottom-right vertex of the
lexicographically least cell. -/
def Polyiamond.rotate60 (p : Polyiamond) : Polyiamond :=
  Polyiamond.ofCells
    (applyTransformAroundVertex rotTransform (getVertex (firstCell p.cells) 1) p.cells)

/-- Polyiamond.reflect_x: reflect across the horizontal axis through the
same vertex. -/
def Polyiamond.reflectX (p : Polyiamond) : Polyiamond :=
  Polyiamond.ofCells
    (applyTransformAroundVertex reflTransform (getVertex (firstCell p.cells) 1) p.cells)

/-- Polyiamond.all_rotations: the six cumulative rotations. -/
def Polyiamond.allRotations (p : Polyiamond) : List Polyiamond :=
  [p, p.rotate60, p.rotate60.rotate60, p.rotate60.rotate60.rotate60,
   p.rotate60.rotate60.rotate60.rotate60, p.rotate60.rotate60.rotate60.rotate60.rotate60]

/-- Polyiamond.all_transformations: each rotation followed by its
reflection, twelve entries in index order. -/
def Polyiamond.allTransformations (p : Polyiamond) : List Polyiamond :=
  p.allRotations.flatMap (fun r => [r, r.reflectX])

/-- C8: the boundary of a finite occupied set is exactly the set of
non-members having a neighbor inside, and it is nonempty whenever the
occupied set is. -/
theorem C8_boundary_correct (O : Finset Cell) :
    (∀ c, c ∈ TriangularGrid.boundary O ↔ c ∉ O ∧ ∃ n ∈ c.neighbors, n ∈ O) ∧
    (O.Nonempty → (TriangularGrid.boundary O).Nonempty) :=
  ⟨mem_boundary_iff O, boundary_nonempty O⟩

/-- Witness for C8 at the singleton up triangle. -/
theorem C8_boundary_correct_witness :
    (TriangularGrid.boundary {(⟨0, 0⟩ : Cell)}).Nonempty :=
  (C8_boundary_correct {(⟨0, 0⟩ : Cell)}).2 ⟨⟨0, 0⟩, by decide⟩

/-- C7 fails as stated: for the singleton cell (0, 1) the minimum of
x + y is odd and the canonicalized set is the cell (1, 0), whose minimum
x coordinate is 1, not -1. -/
theorem C7_counterexample :
    canonicalPosition {(⟨0, 1⟩ : Cell)} = {(⟨1, 0⟩ : Cell)} ∧
    minXc (canonicalPosition {(⟨0, 1⟩ : Cell)}) = 1 ∧
    minXc (canonicalPosition {(⟨0, 1⟩ : Cell)}) ≠ -1 := by decide

/-- C7 amended: canonicalization is a translation of even coordinate sum
which brings the minimum x coordinate to 0 in the even case and to 1 (not
-1) in the odd case. -/
theorem C7_amended (s : Finset Cell) (hs : s.Nonempty) :
    (∃ dx dy : ℤ, 2 ∣ (dx + dy) ∧ canonicalPosition s = TriangularGrid.translate s dx dy) ∧
    minXc (canonicalPosition s) = (if (minXc s + minYc s) % 2 ≠ 0 then 1 else 0) :=
  ⟨canonicalPosition_even_translate s, minXc_canonicalPosition s hs⟩

/-- Witness for the amended C7 at a concrete odd-parity singleton. -/
theorem C7_amended_witness :
    minXc (canonicalPosition {(⟨0, 1⟩ : Cell)}) =
      (if (minXc {(⟨0, 1⟩ : Cell)} + minYc {(⟨0, 1⟩ : Cell)}) % 2 ≠ 0 then 1 else 0) :=
  (C7_amended {(⟨0, 1⟩ : Cell)} ⟨⟨0, 1⟩, by decide⟩).2

/-- C6 fails as stated: the constructor accepts the empty set and accepts a
disconnected two-cell set, whose own is_connected method reports false. -/
theorem C6_counterexample :
    (Polyiamond.ofCells {(⟨0, 0⟩ : Cell), ⟨4, 0⟩}).cells = {(⟨0, 0⟩ : Cell), ⟨4, 0⟩} ∧
    (Polyiamond.ofCells {(⟨0, 0⟩ : Cell), ⟨4, 0⟩}).isConnected = false ∧
    (Polyiamond.ofCells (∅ : Finset Cell)).cells = ∅ := by decide

/-- C6 amended: construction never rejects; the constructor canonicalizes
whatever cell set it is given (preserving its size), with no emptiness or
connectivity check. -/
theorem C6_amended (s : Finset Cell) :
    (Polyiamond.ofCells s).cells = canonicalPosition s ∧
    (Polyiamond.ofCells s).cells.card = s.card :=
  ⟨rfl, canonicalPosition_card s⟩

/-- C10: translate shifts every cell by exactly (dx, dy) and does not
re-canonicalize, so a translated polyiamond need not be in canonical
position. -/
theorem C10_translate_exact :
    (∀ (p : Polyiamond) (dx dy : ℤ) (c : Cell),
        c ∈ (p.translate dx dy).cells ↔ ∃ a ∈ p.cells, c.x = a.x + dx ∧ c.y = a.y + dy) ∧
    (∃ (p : Polyiamond) (dx dy : ℤ),
        (p.translate dx dy).cells ≠ canonicalPosition ((p.translate dx dy).cells)) := by
  constructor
  · intro p dx dy c
    rw [show (p.translate dx dy).cells = TriangularGrid.translate p.cells dx dy from rfl,
      mem_translate]
    constructor
    · rintro ⟨a, ha, rfl⟩; exact ⟨a, ha, rfl, rfl⟩
    · rintro ⟨a, ha, h1, h2⟩
      refine ⟨a, ha, ?_⟩
      rcases c with ⟨cx, cy⟩
      dsimp only at h1 h2
      simp only [Cell.mk.injEq]
      exact ⟨h1, h2⟩
  · exact ⟨Polyiamond.ofCells {⟨0, 0⟩}, 2, 0, by decide⟩

/-- Integer form of the rotation pipeline: rotating 60 degrees clockwise
around the lattice vertex embedded at (A/2, B/2) with A + B odd sends a
cell to this cell. Derived by exact arithmetic from the Cartesian pipeline
and proved equal to it below. -/
def rotAt (A B : ℤ) (c : Cell) : Cell :=
  if c.IsUp then ⟨(c.x + 3 * c.y + 1 + A - 3 * B) / 2, (c.y - c.x + A + B - 1) / 2⟩
  else ⟨(c.x + 3 * c.y + 2 + A - 3 * B) / 2, (c.y - c.x + A + B) / 2⟩

/-- Integer form of the reflection pipeline: reflecting across the
horizontal axis through a vertex embedded at height B/2 sends a cell to
this cell (the x coordinate of the vertex is irrelevant). -/
def reflAt (B : ℤ) (c : Cell) : Cell := ⟨c.x, 2 * B - c.y - 1⟩

/-- Squared distances are nonnegative. -/
theorem distSq_nonneg (p q : ℚ × ℚ) : 0 ≤ distSq p q := by
  unfold distSq
  positivity

/-- Cell centers are pairwise distinct. -/
theorem cellToCartesian_inj : Function.Injective cellToCartesian := by
  intro a b h
  rcases a with ⟨ax, ay⟩
  rcases b with ⟨bx, by'⟩
  unfold cellToCartesian Cell.IsUp at h
  dsimp only at h
  simp only [Cell.mk.injEq]
  split_ifs at h with h1 h2 h2
  · obtain ⟨hx, hy⟩ := Prod.ext_iff.1 h
    dsimp only at hx hy
    field_simp at hx hy
    have hx2 : ax = bx := by exact_mod_cast hx
    have hy2 : ay = by' := by exact_mod_cast hy
    omega
  · obtain ⟨hx, hy⟩ := Prod.ext_iff.1 h
    dsimp only at hx hy
    field_simp at hx hy
    have hx2 : ax = bx := by exact_mod_cast hx
    have hy2 : 3 * ay + 1 = 3 * by' + 2 := by exact_mod_cast hy
    omega
  · obtain ⟨hx, hy⟩ := Prod.ext_iff.1 h
    dsimp only at hx hy
    field_simp at hx hy
    have hx2 : ax = bx := by exact_mod_cast hx
    have hy2 : 3 * ay + 2 = 3 * by' + 1 := by exact_mod_cast hy
    omega
  · obtain ⟨hx, hy⟩ := Prod.ext_iff.1 h
    dsimp only at hx hy
    field_simp at hx hy
    have hx2 : ax = bx := by exact_mod_cast hx
    have hy2 : ay = by' := by exact_mod_cast hy
    omega

/-- If the squared distance between two cell centers vanishes the cells
coincide. -/
theorem distSq_centers_zero (a b : Cell)
    (h : distSq (cellToCartesian a) (cellToCartesian b) = 0) : a = b := by
  unfold distSq at h
  have h1 : (cellToCartesian a).1 - (cellToCartesian b).1 = 0 := by
    nlinarith [sq_nonneg ((cellToCartesian a).1 - (cellToCartesian b).1),
      sq_nonneg ((cellToCartesian a).2 - (cellToCartesian b).2)]
  have h2 : (cellToCartesian a).2 - (cellToCartesian b).2 = 0 := by
    nlinarith [sq_nonneg ((cellToCartesian a).1 - (cellToCartesian b).1),
      sq_nonneg ((cellToCartesian a).2 - (cellToCartesian b).2)]
  exact cellToCartesian_inj (Prod.ext (sub_eq_zero.mp h1) (sub_eq_zero.mp h2))

/-- The Python round of an integer is that integer. -/
theorem pythonRound_intCast (n : ℤ) : pythonRound (n : ℚ) = n := by
  unfold pythonRound
  rw [Int.floor_intCast]
  rw [if_pos]
  simp only [sub_self]
  norm_num

/-- Unfolding the search step on an empty accumulator. -/
theorem snapStep_none (p : ℚ × ℚ) (ce re : ℤ) (d : ℤ × ℤ) :
    snapStep p ce re none d =
      some (⟨ce + d.2, re + d.1⟩, distSq (cellToCartesian ⟨ce + d.2, re + d.1⟩) p) := rfl

/-- Unfolding the search step on a held candidate. -/
theorem snapStep_some (p : ℚ × ℚ) (ce re : ℤ) (d : ℤ × ℤ) (b : Cell) (bd : ℚ) :
    snapStep p ce re (some (b, bd)) d =
      if distSq (cellToCartesian ⟨ce + d.2, re + d.1⟩) p < bd then
        some (⟨ce + d.2, re + d.1⟩, distSq (cellToCartesian ⟨ce + d.2, re + d.1⟩) p)
      else some (b, bd) := rfl

/-- Once the accumulator holds a zero-distance candidate, the search keeps
it: no squared distance is negative. -/
theorem snap_foldl_keep (p : ℚ × ℚ) (colEst rowEst : ℤ) (L : List (ℤ × ℤ)) (c0 : Cell) :
    L.foldl (snapStep p colEst rowEst) (some (c0, 0)) = some (c0, 0) := by
  induction L with
  | nil => rfl
  | cons d t ih =>
      rw [List.foldl_cons, snapStep_some, if_neg (not_lt.2 (distSq_nonneg _ _)), ih]

/-- If the window contains a cell whose center is the queried point and
every other window cell has positive squared distance, the search returns
that cell from any safe accumulator. -/
theorem snap_foldl_reach (p : ℚ × ℚ) (colEst rowEst : ℤ) (L : List (ℤ × ℤ)) (c0 : Cell)
    (h0 : distSq (cellToCartesian c0) p = 0)
    (hpos : ∀ d ∈ L, (⟨colEst + d.2, rowEst + d.1⟩ : Cell) ≠ c0 →
      0 < distSq (cellToCartesian ⟨colEst + d.2, rowEst + d.1⟩) p)
    (hc0 : ∃ d ∈ L, (⟨colEst + d.2, rowEst + d.1⟩ : Cell) = c0) :
    ∀ acc : Option (Cell × ℚ),
      (acc = none ∨ ∃ b bd, acc = some (b, bd) ∧ 0 < bd) →
      L.foldl (snapStep p colEst rowEst) acc = some (c0, 0) := by
  induction L with
  | nil => rcases hc0 with ⟨d, hd, _⟩; exact absurd hd (List.not_mem_nil d)
  | cons d t ih =>
      intro acc hacc
      by_cases hhead : (⟨colEst + d.2, rowEst + d.1⟩ : Cell) = c0
      · have hdist : distSq (cellToCartesian (⟨colEst + d.2, rowEst + d.1⟩ : Cell)) p = 0 := by
          rw [hhead]; exact h0
        have hstep : snapStep p colEst rowEst acc d = some (c0, 0) := by
          rcases hacc with rfl | ⟨b, bd, rfl, hbd⟩
          · rw [snapStep_none, hhead, h0]
          · rw [snapStep_some, if_pos (by rw [hdist]; exact hbd), hhead, h0]
        rw [List.foldl_cons, hstep]
        exact snap_foldl_keep p colEst rowEst t c0
      · have hdpos : 0 < distSq (cellToCartesian (⟨colEst + d.2, rowEst + d.1⟩ : Cell)) p :=
          hpos d (List.mem_cons_self d t) hhead
        have hc0t : ∃ e ∈ t, (⟨colEst + e.2, rowEst + e.1⟩ : Cell) = c0 := by
          rcases hc0 with ⟨e, he, heq⟩
          rcases List.mem_cons.1 he with rfl | het
          · exact absurd heq hhead
          · exact ⟨e, het, heq⟩
        have hpost : ∀ e ∈ t, (⟨colEst + e.2, rowEst + e.1⟩ : Cell) ≠ c0 →
            0 < distSq (cellToCartesian ⟨colEst + e.2, rowEst + e.1⟩) p :=
          fun e he => hpos e (List.mem_cons_of_mem d he)
        rw [List.foldl_cons]
        apply ih hpost hc0t
        rcases hacc with rfl | ⟨b, bd, rfl, hbd⟩
        · rw [snapStep_none]
          exact Or.inr ⟨_, _, rfl, hdpos⟩
        · rw [snapStep_some]
          split_ifs with hlt
          · exact Or.inr ⟨_, _, rfl, hdpos⟩
          · exact Or.inr ⟨_, _, rfl, hbd⟩

/-- The nearest-cell search is exact on cell centers when the estimates
land on the cell itself. -/
theorem cartesianToCell_of_center (p : ℚ × ℚ) (c0 : Cell)
    (hcenter : p = cellToCartesian c0)
    (hcol : pythonRound (2 * p.1) = c0.x) (hrow : ⌊2 * p.2⌋ = c0.y) :
    cartesianToCell p = c0 := by
  have h0 : distSq (cellToCartesian c0) p = 0 := by
    rw [hcenter]; unfold distSq; ring
  have hpos : ∀ d ∈ searchOffsets, (⟨c0.x + d.2, c0.y + d.1⟩ : Cell) ≠ c0 →
      0 < distSq (cellToCartesian ⟨c0.x + d.2, c0.y + d.1⟩) p := by
    intro d _ hne
    rcases lt_or_eq_of_le (distSq_nonneg (cellToCartesian ⟨c0.x + d.2, c0.y + d.1⟩) p) with h | h
    · exact h
    · exfalso
      apply hne
      apply distSq_centers_zero
      rw [← hcenter]
      exact h.symm
  have hc0 : ∃ d ∈ searchOffsets, (⟨c0.x + d.2, c0.y + d.1⟩ : Cell) = c0 := by
    refine ⟨(0, 0), by decide, ?_⟩
    rcases c0 with ⟨cx, cy⟩
    simp only [Cell.mk.injEq]
    constructor <;> dsimp only <;> ring
  have hfold := snap_foldl_reach p c0.x c0.y searchOffsets c0 h0 hpos hc0 none (Or.inl rfl)
  unfold cartesianToCell
  rw [hcol, hrow, hfold]

/-- Floor of one third plus an integer. -/
theorem floor_third_add (n : ℤ) : ⌊(1/3 : ℚ) + (n : ℚ)⌋ = n := by
  rw [show ((n : ℚ)) = ((n : ℤ) : ℚ) from rfl, Int.floor_add_int]
  norm_num

/-- Floor of two thirds plus an integer. -/
theorem floor_two_third_add (n : ℤ) : ⌊(2/3 : ℚ) + (n : ℚ)⌋ = n := by
  rw [show ((n : ℚ)) = ((n : ℤ) : ℚ) from rfl, Int.floor_add_int]
  norm_num

/-- The snap is exact on every cell center. -/
theorem cartesianToCell_center (c : Cell) : cartesianToCell (cellToCartesian c) = c := by
  apply cartesianToCell_of_center _ c rfl
  · have h1 : 2 * (cellToCartesian c).1 = ((c.x : ℚ)) := by
      unfold cellToCartesian; split_ifs <;> dsimp only <;> ring
    rw [h1, pythonRound_intCast]
  · rcases c with ⟨cx, cy⟩
    unfold cellToCartesian Cell.IsUp
    dsimp only
    split_ifs with h
    · dsimp only
      have h2 : (2:ℚ) * ((3*(cy:ℚ)+1)/6) = 1/3 + (cy:ℚ) := by ring
      rw [h2, floor_third_add]
    · dsimp only
      have h2 : (2:ℚ) * ((3*(cy:ℚ)+2)/6) = 2/3 + (cy:ℚ) := by ring
      rw [h2, floor_two_third_add]

/-- The snap is exact on any point equal to a cell center. -/
theorem cartesianToCell_center_pt (p : ℚ × ℚ) (c0 : Cell) (h : p = cellToCartesian c0) :
    cartesianToCell p = c0 := h ▸ cartesianToCell_center c0

/-- The rotation pipeline around a lattice vertex (A/2, B/2 * sqrt 3) with
A + B odd agrees with the integer rotation formula on every cell. -/
theorem applyRot_point (A B : ℤ) (hAB : (A + B) % 2 = 1) (c : Cell) :
    cartesianToCell
      ((rotTransform ((cellToCartesian c).1 - (A : ℚ)/2, (cellToCartesian c).2 - (B : ℚ)/2)).1
          + (A : ℚ)/2,
       (rotTransform ((cellToCartesian c).1 - (A : ℚ)/2, (cellToCartesian c).2 - (B : ℚ)/2)).2
          + (B : ℚ)/2) =
      rotAt A B c := by
  rcases c with ⟨x, y⟩
  by_cases h : (x + y) % 2 = 0
  · obtain ⟨u, hu⟩ : ∃ u : ℤ, x + 3*y + 1 + A - 3*B = 2*u :=
      ⟨(x + 3*y + 1 + A - 3*B) / 2, by omega⟩
    obtain ⟨v, hv⟩ : ∃ v : ℤ, y - x + A + B - 1 = 2*v :=
      ⟨(y - x + A + B - 1) / 2, by omega⟩
    have htarget : rotAt A B ⟨x, y⟩ = ⟨u, v⟩ := by
      unfold rotAt Cell.IsUp
      dsimp only
      rw [if_pos h]
      simp only [Cell.mk.injEq]
      omega
    rw [htarget]
    apply cartesianToCell_center_pt
    have hsrc : cellToCartesian ⟨x, y⟩ = ((x:ℚ)/2, (3*(y:ℚ)+1)/6) := by
      unfold cellToCartesian
      rw [if_pos (by dsimp only [Cell.IsUp]; exact h)]
    have htgt : cellToCartesian ⟨u, v⟩ = ((u:ℚ)/2, (3*(v:ℚ)+2)/6) := by
      unfold cellToCartesian
      rw [if_neg (by dsimp only [Cell.IsUp]; omega)]
    have huQ : (x:ℚ) + 3*y + 1 + A - 3*B = 2*u := by exact_mod_cast hu
    have hvQ : (y:ℚ) - x + A + B - 1 = 2*v := by exact_mod_cast hv
    rw [hsrc, htgt]
    unfold rotTransform
    apply Prod.ext
    · dsimp only
      linear_combination huQ / 4
    · dsimp only
      linear_combination hvQ / 4
  · obtain ⟨u, hu⟩ : ∃ u : ℤ, x + 3*y + 2 + A - 3*B = 2*u :=
      ⟨(x + 3*y + 2 + A - 3*B) / 2, by omega⟩
    obtain ⟨v, hv⟩ : ∃ v : ℤ, y - x + A + B = 2*v :=
      ⟨(y - x + A + B) / 2, by omega⟩
    have htarget : rotAt A B ⟨x, y⟩ = ⟨u, v⟩ := by
      unfold rotAt Cell.IsUp
      dsimp only
      rw [if_neg h]
      simp only [Cell.mk.injEq]
      omega
    rw [htarget]
    apply cartesianToCell_center_pt
    have hsrc : cellToCartesian ⟨x, y⟩ = ((x:ℚ)/2, (3*(y:ℚ)+2)/6) := by
      unfold cellToCartesian
      rw [if_neg (by dsimp only [Cell.IsUp]; exact h)]
    have htgt : cellToCartesian ⟨u, v⟩ = ((u:ℚ)/2, (3*(v:ℚ)+1)/6) := by
      unfold cellToCartesian
      rw [if_pos (by dsimp only [Cell.IsUp]; omega)]
    have huQ : (x:ℚ) + 3*y + 2 + A - 3*B = 2*u := by exact_mod_cast hu
    have hvQ : (y:ℚ) - x + A + B = 2*v := by exact_mod_cast hv
    rw [hsrc, htgt]
    unfold rotTransform
    apply Prod.ext
    · dsimp only
      linear_combination huQ / 4
    · dsimp only
      linear_combination hvQ / 4

/-- The reflection pipeline through any vertex at height B/2 * sqrt 3
agrees with the integer reflection formula on every cell. -/
theorem applyRefl_point (vx : ℚ) (B : ℤ) (c : Cell) :
    cartesianToCell
      ((reflTransform ((cellToCartesian c).1 - vx, (cellToCartesian c).2 - (B : ℚ)/2)).1 + vx,
       (reflTransform ((cellToCartesian c).1 - vx, (cellToCartesian c).2 - (B : ℚ)/2)).2
          + (B : ℚ)/2) =
      reflAt B c := by
  rcases c with ⟨x, y⟩
  have htarget : reflAt B ⟨x, y⟩ = ⟨x, 2*B - y - 1⟩ := rfl
  rw [htarget]
  apply cartesianToCell_center_pt
  by_cases h : (x + y) % 2 = 0
  · have hsrc : cellToCartesian ⟨x, y⟩ = ((x:ℚ)/2, (3*(y:ℚ)+1)/6) := by
      unfold cellToCartesian
      rw [if_pos (by dsimp only [Cell.IsUp]; exact h)]
    have htgt : cellToCartesian ⟨x, 2*B - y - 1⟩ = ((x:ℚ)/2, (3*((2*B - y - 1 : ℤ):ℚ)+2)/6) := by
      unfold cellToCartesian
      rw [if_neg (by dsimp only [Cell.IsUp]; omega)]
    rw [hsrc, htgt]
    unfold reflTransform
    apply Prod.ext
    · dsimp only
      ring
    · dsimp only
      push_cast
      ring
  · have hsrc : cellToCartesian ⟨x, y⟩ = ((x:ℚ)/2, (3*(y:ℚ)+2)/6) := by
      unfold cellToCartesian
      rw [if_neg (by dsimp only [Cell.IsUp]; exact h)]
    have htgt : cellToCartesian ⟨x, 2*B - y - 1⟩ = ((x:ℚ)/2, (3*((2*B - y - 1 : ℤ):ℚ)+1)/6) := by
      unfold cellToCartesian
      rw [if_pos (by dsimp only [Cell.IsUp]; omega)]
    rw [hsrc, htgt]
    unfold reflTransform
    apply Prod.ext
    · dsimp only
      ring
    · dsimp only
      push_cast
      ring

/-- The rotation pipeline on a whole cell set. -/
theorem applyRot_eq (A B : ℤ) (hAB : (A + B) % 2 = 1) (s : Finset Cell) :
    applyTransformAroundVertex rotTransform ((A : ℚ)/2, (B : ℚ)/2) s = s.image (rotAt A B) := by
  unfold applyTransformAroundVertex
  apply Finset.image_congr
  intro c _
  exact applyRot_point A B hAB c

/-- The reflection pipeline on a whole cell set. -/
theorem applyRefl_eq (vx : ℚ) (B : ℤ) (s : Finset Cell) :
    applyTransformAroundVertex reflTransform (vx, (B : ℚ)/2) s = s.image (reflAt B) := by
  unfold applyTransformAroundVertex
  apply Finset.image_congr
  intro c _
  exact applyRefl_point vx B c

/-- The bottom-right (index 1) vertex of any cell is a lattice vertex:
its embedded coordinates are (A/2, B/2) with A + B odd. -/
theorem getVertex1_form (c : Cell) :
    ∃ A B : ℤ, (A + B) % 2 = 1 ∧ getVertex c 1 = ((A : ℚ)/2, (B : ℚ)/2) := by
  rcases c with ⟨x, y⟩
  by_cases h : (x + y) % 2 = 0
  · refine ⟨x + 1, y, by omega, ?_⟩
    unfold getVertex
    rw [if_pos (by dsimp only [Cell.IsUp]; exact h), if_neg (by norm_num), if_pos rfl]
    apply Prod.ext <;> dsimp only <;> push_cast <;> ring
  · refine ⟨x + 1, y + 1, by omega, ?_⟩
    unfold getVertex
    rw [if_neg (by dsimp only [Cell.IsUp]; exact h), if_neg (by norm_num), if_pos rfl]
    apply Prod.ext <;> dsimp only <;> push_cast <;> ring

/-- Rotations about different lattice vertices differ by a translation of
even coordinate sum. -/
theorem rotAt_shift (A B Ap Bp : ℤ) (h : (A + B) % 2 = 1) (hp : (Ap + Bp) % 2 = 1) (c : Cell) :
    rotAt Ap Bp c =
      ⟨(rotAt A B c).x + ((Ap - A) - 3*(Bp - B)) / 2,
       (rotAt A B c).y + ((Ap - A) + (Bp - B)) / 2⟩ := by
  rcases c with ⟨x, y⟩
  unfold rotAt Cell.IsUp
  dsimp only
  split_ifs with hc <;> (simp only [Cell.mk.injEq]; omega)

/-- Reflections through vertices at different heights differ by a vertical
translation by an even amount. -/
theorem reflAt_shift (B Bp : ℤ) (c : Cell) :
    reflAt Bp c = ⟨(reflAt B c).x + 0, (reflAt B c).y + 2*(Bp - B)⟩ := by
  rcases c with ⟨x, y⟩
  unfold reflAt
  simp only [Cell.mk.injEq]
  omega

/-- Image under a rotation about any valid vertex, as a translate of the
image under the reference rotation. -/
theorem image_rotAt_translate (A B Ap Bp : ℤ) (h : (A + B) % 2 = 1) (hp : (Ap + Bp) % 2 = 1)
    (s : Finset Cell) :
    s.image (rotAt Ap Bp) =
      TriangularGrid.translate (s.image (rotAt A B))
        (((Ap - A) - 3*(Bp - B)) / 2) (((Ap - A) + (Bp - B)) / 2) := by
  unfold TriangularGrid.translate
  rw [Finset.image_image]
  apply Finset.image_congr
  intro c _
  exact rotAt_shift A B Ap Bp h hp c

/-- Canonicalized rotation images do not depend on the vertex chosen. -/
theorem canonicalPosition_image_rotAt (A B : ℤ) (h : (A + B) % 2 = 1) (s : Finset Cell) :
    canonicalPosition (s.image (rotAt A B)) = canonicalPosition (s.image (rotAt 1 0)) := by
  rw [image_rotAt_translate 1 0 A B (by norm_num) h s]
  apply canonicalPosition_translate
  omega

/-- Canonicalized reflection images do not depend on the vertex chosen. -/
theorem canonicalPosition_image_reflAt (B : ℤ) (s : Finset Cell) :
    canonicalPosition (s.image (reflAt B)) = canonicalPosition (s.image (reflAt 0)) := by
  have himg : s.image (reflAt B) =
      TriangularGrid.translate (s.image (reflAt 0)) 0 (2*(B - 0)) := by
    unfold TriangularGrid.translate
    rw [Finset.image_image]
    apply Finset.image_congr
    intro c _
    exact reflAt_shift 0 B c
  rw [himg]
  apply canonicalPosition_translate
  omega

/-- The reference integer rotation. -/
def rotCell : Cell → Cell := rotAt 1 0

/-- The reference integer reflection. -/
def reflCell : Cell → Cell := reflAt 0

/-- Polyiamond.rotate_60 computes the canonicalized image of the cells
under the reference integer rotation. -/
theorem rotate60_cells (p : Polyiamond) :
    p.rotate60.cells = canonicalPosition (p.cells.image rotCell) := by
  unfold Polyiamond.rotate60 Polyiamond.ofCells
  obtain ⟨A, B, hAB, hv⟩ := getVertex1_form (firstCell p.cells)
  dsimp only
  rw [hv, applyRot_eq A B hAB]
  exact canonicalPosition_image_rotAt A B hAB p.cells

/-- Polyiamond.reflect_x computes the canonicalized image of the cells
under the reference integer reflection. -/
theorem reflectX_cells (p : Polyiamond) :
    p.reflectX.cells = canonicalPosition (p.cells.image reflCell) := by
  unfold Polyiamond.reflectX Polyiamond.ofCells
  obtain ⟨A, B, hAB, hv⟩ := getVertex1_form (firstCell p.cells)
  dsimp only
  rw [hv, applyRefl_eq ((A : ℚ)/2) B]
  exact canonicalPosition_image_reflAt B p.cells

/-- The reference rotation on an up cell, with the image named by its
doubled coordinates. -/
theorem rotCell_up_eq (x y x1 y1 : ℤ) (h : (x + y) % 2 = 0)
    (hx : 2*x1 = x + 3*y + 2) (hy : 2*y1 = y - x) : rotCell ⟨x, y⟩ = ⟨x1, y1⟩ := by
  unfold rotCell rotAt Cell.IsUp
  dsimp only
  rw [if_pos h]
  simp only [Cell.mk.injEq]
  omega

/-- The reference rotation on a down cell. -/
theorem rotCell_down_eq (x y x1 y1 : ℤ) (h : ¬ ((x + y) % 2 = 0))
    (hx : 2*x1 = x + 3*y + 3) (hy : 2*y1 = y - x + 1) : rotCell ⟨x, y⟩ = ⟨x1, y1⟩ := by
  unfold rotCell rotAt Cell.IsUp
  dsimp only
  rw [if_neg h]
  simp only [Cell.mk.injEq]
  omega

/-- The reference reflection in coordinates. -/
theorem reflCell_eq (x y : ℤ) : reflCell ⟨x, y⟩ = ⟨x, -y - 1⟩ := by
  unfold reflCell reflAt
  dsimp only
  simp only [Cell.mk.injEq, true_and, and_true]
  omega

/-- Six reference rotations are the identity. -/
theorem rotCell_six (c : Cell) :
    rotCell (rotCell (rotCell (rotCell (rotCell (rotCell c))))) = c := by
  rcases c with ⟨x, y⟩
  by_cases h : (x + y) % 2 = 0
  · obtain ⟨x1, y1, hx1, hy1⟩ : ∃ a b : ℤ, 2*a = x + 3*y + 2 ∧ 2*b = y - x :=
      ⟨(x + 3*y + 2)/2, (y - x)/2, by omega, by omega⟩
    obtain ⟨x2, y2, hx2, hy2⟩ : ∃ a b : ℤ, 2*a = x1 + 3*y1 + 3 ∧ 2*b = y1 - x1 + 1 :=
      ⟨(x1 + 3*y1 + 3)/2, (y1 - x1 + 1)/2, by omega, by omega⟩
    obtain ⟨x3, y3, hx3, hy3⟩ : ∃ a b : ℤ, 2*a = x2 + 3*y2 + 2 ∧ 2*b = y2 - x2 :=
      ⟨(x2 + 3*y2 + 2)/2, (y2 - x2)/2, by omega, by omega⟩
    obtain ⟨x4, y4, hx4, hy4⟩ : ∃ a b : ℤ, 2*a = x3 + 3*y3 + 3 ∧ 2*b = y3 - x3 + 1 :=
      ⟨(x3 + 3*y3 + 3)/2, (y3 - x3 + 1)/2, by omega, by omega⟩
    obtain ⟨x5, y5, hx5, hy5⟩ : ∃ a b : ℤ, 2*a = x4 + 3*y4 + 2 ∧ 2*b = y4 - x4 :=
      ⟨(x4 + 3*y4 + 2)/2, (y4 - x4)/2, by omega, by omega⟩
    obtain ⟨x6, y6, hx6, hy6⟩ : ∃ a b : ℤ, 2*a = x5 + 3*y5 + 3 ∧ 2*b = y5 - x5 + 1 :=
      ⟨(x5 + 3*y5 + 3)/2, (y5 - x5 + 1)/2, by omega, by omega⟩
    rw [rotCell_up_eq x y x1 y1 h hx1 hy1,
      rotCell_down_eq x1 y1 x2 y2 (by omega) hx2 hy2,
      rotCell_up_eq x2 y2 x3 y3 (by omega) hx3 hy3,
      rotCell_down_eq x3 y3 x4 y4 (by omega) hx4 hy4,
      rotCell_up_eq x4 y4 x5 y5 (by omega) hx5 hy5,
      rotCell_down_eq x5 y5 x6 y6 (by omega) hx6 hy6]
    simp only [Cell.mk.injEq]
    omega
  · obtain ⟨x1, y1, hx1, hy1⟩ : ∃ a b : ℤ, 2*a = x + 3*y + 3 ∧ 2*b = y - x + 1 :=
      ⟨(x + 3*y + 3)/2, (y - x + 1)/2, by omega, by omega⟩
    obtain ⟨x2, y2, hx2, hy2⟩ : ∃ a b : ℤ, 2*a = x1 + 3*y1 + 2 ∧ 2*b = y1 - x1 :=
      ⟨(x1 + 3*y1 + 2)/2, (y1 - x1)/2, by omega, by omega⟩
    obtain ⟨x3, y3, hx3, hy3⟩ : ∃ a b : ℤ, 2*a = x2 + 3*y2 + 3 ∧ 2*b = y2 - x2 + 1 :=
      ⟨(x2 + 3*y2 + 3)/2, (y2 - x2 + 1)/2, by omega, by omega⟩
    obtain ⟨x4, y4, hx4, hy4⟩ : ∃ a b : ℤ, 2*a = x3 + 3*y3 + 2 ∧ 2*b = y3 - x3 :=
      ⟨(x3 + 3*y3 + 2)/2, (y3 - x3)/2, by omega, by omega⟩
    obtain ⟨x5, y5, hx5, hy5⟩ : ∃ a b : ℤ, 2*a = x4 + 3*y4 + 3 ∧ 2*b = y4 - x4 + 1 :=
      ⟨(x4 + 3*y4 + 3)/2, (y4 - x4 + 1)/2, by omega, by omega⟩
    obtain ⟨x6, y6, hx6, hy6⟩ : ∃ a b : ℤ, 2*a = x5 + 3*y5 + 2 ∧ 2*b = y5 - x5 :=
      ⟨(x5 + 3*y5 + 2)/2, (y5 - x5)/2, by omega, by omega⟩
    rw [rotCell_down_eq x y x1 y1 h hx1 hy1,
      rotCell_up_eq x1 y1 x2 y2 (by omega) hx2 hy2,
      rotCell_down_eq x2 y2 x3 y3 (by omega) hx3 hy3,
      rotCell_up_eq x3 y3 x4 y4 (by omega) hx4 hy4,
      rotCell_down_eq x4 y4 x5 y5 (by omega) hx5 hy5,
      rotCell_up_eq x5 y5 x6 y6 (by omega) hx6 hy6]
    simp only [Cell.mk.injEq]
    omega

/-- The reference reflection is an involution. -/
theorem reflCell_two (c : Cell) : reflCell (reflCell c) = c := by
  rcases c with ⟨x, y⟩
  rw [reflCell_eq, reflCell_eq]
  simp only [Cell.mk.injEq, true_and, and_true]
  omega

/-- The dihedral braid relation between the reference rotation and
reflection. -/
theorem rot_refl_rot (c : Cell) : rotCell (reflCell (rotCell c)) = reflCell c := by
  rcases c with ⟨x, y⟩
  rw [reflCell_eq x y]
  by_cases h : (x + y) % 2 = 0
  · obtain ⟨x1, y1, hx1, hy1⟩ : ∃ a b : ℤ, 2*a = x + 3*y + 2 ∧ 2*b = y - x :=
      ⟨(x + 3*y + 2)/2, (y - x)/2, by omega, by omega⟩
    obtain ⟨x3, y3, hx3, hy3⟩ : ∃ a b : ℤ, 2*a = x1 + 3*(-y1 - 1) + 2 ∧ 2*b = (-y1 - 1) - x1 :=
      ⟨(x1 + 3*(-y1 - 1) + 2)/2, ((-y1 - 1) - x1)/2, by omega, by omega⟩
    rw [rotCell_up_eq x y x1 y1 h hx1 hy1, reflCell_eq x1 y1,
      rotCell_up_eq x1 (-y1 - 1) x3 y3 (by omega) hx3 hy3]
    simp only [Cell.mk.injEq]
    omega
  · obtain ⟨x1, y1, hx1, hy1⟩ : ∃ a b : ℤ, 2*a = x + 3*y + 3 ∧ 2*b = y - x + 1 :=
      ⟨(x + 3*y + 3)/2, (y - x + 1)/2, by omega, by omega⟩
    obtain ⟨x3, y3, hx3, hy3⟩ : ∃ a b : ℤ, 2*a = x1 + 3*(-y1 - 1) + 3 ∧ 2*b = (-y1 - 1) - x1 + 1 :=
      ⟨(x1 + 3*(-y1 - 1) + 3)/2, ((-y1 - 1) - x1 + 1)/2, by omega, by omega⟩
    rw [rotCell_down_eq x y x1 y1 h hx1 hy1, reflCell_eq x1 y1,
      rotCell_down_eq x1 (-y1 - 1) x3 y3 (by omega) hx3 hy3]
    simp only [Cell.mk.injEq]
    omega

/-- Iterated reference rotation, innermost first. -/
def rotIter : ℕ → Cell → Cell
  | 0, c => c
  | n + 1, c => rotIter n (rotCell c)

/-- The outer-application form of the iteration. -/
theorem rotIter_succ_out (n : ℕ) (c : Cell) : rotIter (n + 1) c = rotCell (rotIter n c) := by
  induction n generalizing c with
  | zero => rfl
  | succ m ih =>
      show rotIter (m + 1) (rotCell c) = rotCell (rotIter (m + 1) c)
      rw [ih (rotCell c)]
      rfl

/-- Six iterations are the identity. -/
theorem rotIter_six (c : Cell) : rotIter 6 c = c := by
  show rotCell (rotCell (rotCell (rotCell (rotCell (rotCell c))))) = c
  exact rotCell_six c

/-- Conditional reflection. -/
def condRefl (e : Bool) (c : Cell) : Cell := if e then reflCell c else c

/-- The twelve point transforms of the dihedral group, indexed by a
rotation count and a reflection flag. -/
def ptMap (k : ℕ) (e : Bool) (c : Cell) : Cell := condRefl e (rotIter k c)

/-- Pulling a rotation past a reflection. -/
theorem rot_refl (c : Cell) : rotCell (reflCell c) = reflCell (rotIter 5 c) := by
  have h := rot_refl_rot (rotIter 5 c)
  have h6 : rotCell (rotIter 5 c) = c := by
    rw [← rotIter_succ_out 5 c]
    exact rotIter_six c
  rw [h6] at h
  exact h

/-- A map commutes with even translations, sending them to even
translations. -/
def EvenEquivariant (g : Cell → Cell) : Prop :=
  ∀ dx dy : ℤ, 2 ∣ (dx + dy) → ∃ ex ey : ℤ, 2 ∣ (ex + ey) ∧
    ∀ c : Cell, g ⟨c.x + dx, c.y + dy⟩ = ⟨(g c).x + ex, (g c).y + ey⟩

/-- The reference rotation is evenly equivariant. -/
theorem evenEquivariant_rotCell : EvenEquivariant rotCell := by
  intro dx dy h2
  refine ⟨(dx + 3*dy)/2, (dy - dx)/2, by omega, ?_⟩
  intro c
  rcases c with ⟨x, y⟩
  unfold rotCell rotAt Cell.IsUp
  dsimp only
  split_ifs <;> (simp only [Cell.mk.injEq]; omega)

/-- The reference reflection is evenly equivariant. -/
theorem evenEquivariant_reflCell : EvenEquivariant reflCell := by
  intro dx dy h2
  refine ⟨dx, -dy, by omega, ?_⟩
  intro c
  rcases c with ⟨x, y⟩
  unfold reflCell reflAt
  dsimp only
  simp only [Cell.mk.injEq, true_and, and_true]
  omega

/-- The identity is evenly equivariant. -/
theorem evenEquivariant_id : EvenEquivariant (fun c => c) := by
  intro dx dy h2
  exact ⟨dx, dy, h2, fun c => rfl⟩

/-- Even equivariance is closed under composition. -/
theorem EvenEquivariant.comp {g f : Cell → Cell}
    (hg : EvenEquivariant g) (hf : EvenEquivariant f) :
    EvenEquivariant (fun c => g (f c)) := by
  intro dx dy h2
  obtain ⟨ex, ey, he2, hf'⟩ := hf dx dy h2
  obtain ⟨fx, fy, hf2, hg'⟩ := hg ex ey he2
  refine ⟨fx, fy, hf2, ?_⟩
  intro c
  dsimp only
  rw [hf' c, hg' (f c)]

/-- Iterated rotations are evenly equivariant. -/
theorem evenEquivariant_rotIter (k : ℕ) : EvenEquivariant (rotIter k) := by
  induction k with
  | zero => exact evenEquivariant_id
  | succ n ih =>
      have := ih.comp evenEquivariant_rotCell
      intro dx dy h2
      obtain ⟨ex, ey, he2, hmain⟩ := this dx dy h2
      exact ⟨ex, ey, he2, fun c => hmain c⟩

/-- Every point transform is evenly equivariant. -/
theorem evenEquivariant_ptMap (k : ℕ) (e : Bool) : EvenEquivariant (ptMap k e) := by
  cases e
  · intro dx dy h2
    obtain ⟨ex, ey, he2, hmain⟩ := evenEquivariant_rotIter k dx dy h2
    exact ⟨ex, ey, he2, fun c => hmain c⟩
  · have := (evenEquivariant_reflCell.comp (evenEquivariant_rotIter k))
    intro dx dy h2
    obtain ⟨ex, ey, he2, hmain⟩ := this dx dy h2
    exact ⟨ex, ey, he2, fun c => hmain c⟩

/-- Images under an evenly equivariant map commute with canonicalization. -/
theorem canonicalPosition_image_equivariant {g : Cell → Cell} (hg : EvenEquivariant g)
    (s : Finset Cell) :
    canonicalPosition ((canonicalPosition s).image g) = canonicalPosition (s.image g) := by
  obtain ⟨dx, dy, h2, heq⟩ := canonicalPosition_even_translate s
  rw [heq]
  obtain ⟨ex, ey, he2, hmain⟩ := hg dx dy h2
  have himg : (TriangularGrid.translate s dx dy).image g =
      TriangularGrid.translate (s.image g) ex ey := by
    unfold TriangularGrid.translate
    rw [Finset.image_image, Finset.image_image]
    apply Finset.image_congr
    intro c _
    exact hmain c
  rw [himg]
  exact canonicalPosition_translate (s.image g) ex ey he2

/-- Canonicalized image of a cell set under one of the twelve point
transforms. -/
def eOrb (s : Finset Cell) (k : ℕ) (e : Bool) : Finset Cell :=
  canonicalPosition (s.image (ptMap k e))

/-- Iteration accumulates. -/
theorem rotIter_add (m n : ℕ) (c : Cell) : rotIter (m + n) c = rotIter n (rotIter m c) := by
  induction m generalizing c with
  | zero => rw [Nat.zero_add]; rfl
  | succ a ih =>
      have h1 : a + 1 + n = (a + n) + 1 := by omega
      rw [h1]
      show rotIter (a + n) (rotCell c) = rotIter n (rotIter a (rotCell c))
      exact ih (rotCell c)

/-- Pulling any number up to six of rotations past a reflection. -/
theorem rotIter_refl_six (k : ℕ) (hk : k ≤ 6) (c : Cell) :
    rotIter k (reflCell c) = reflCell (rotIter (6 - k) c) := by
  induction k generalizing c with
  | zero => rw [rotIter_six]; rfl
  | succ a ih =>
      rw [rotIter_succ_out, ih (by omega) c, rot_refl]
      have h1 : (5 : ℕ) = (6 - a) - 1 + (6 - (6 - a)) := by omega
      have h2 : rotIter 5 (rotIter (6 - a) c) = rotIter (6 - (a + 1)) c := by
        have h3 : (6 - a) + 5 = 6 + (6 - (a + 1)) := by omega
        rw [← rotIter_add, h3, rotIter_add, rotIter_six]
      rw [h2]

/-- The point transforms absorb a preceding rotation. -/
theorem ptMap_rot (k : ℕ) (e : Bool) (c : Cell) : ptMap k e (rotCell c) = ptMap (k + 1) e c := rfl

/-- The point transforms absorb a preceding reflection by inverting the
rotation count and flipping the flag. -/
theorem ptMap_refl (k : ℕ) (hk : k ≤ 6) (e : Bool) (c : Cell) :
    ptMap k e (reflCell c) = ptMap (6 - k) (!e) c := by
  unfold ptMap
  rw [rotIter_refl_six k hk c]
  cases e
  · rfl
  · show condRefl true (reflCell (rotIter (6 - k) c)) = condRefl false (rotIter (6 - k) c)
    show reflCell (reflCell (rotIter (6 - k) c)) = rotIter (6 - k) c
    exact reflCell_two _

/-- Six rotations collapse in the orbit indices. -/
theorem eOrb_six (s : Finset Cell) (e : Bool) : eOrb s 6 e = eOrb s 0 e := by
  unfold eOrb
  congr 1
  apply Finset.image_congr
  intro c _
  show condRefl e (rotIter 6 c) = condRefl e (rotIter 0 c)
  rw [rotIter_six]
  rfl

/-- Rotating first shifts the orbit index. -/
theorem eOrb_after_rot (s : Finset Cell) (k : ℕ) (e : Bool) :
    eOrb (eOrb s 1 false) k e = eOrb s (k + 1) e := by
  unfold eOrb
  rw [canonicalPosition_image_equivariant (evenEquivariant_ptMap k e)]
  rw [Finset.image_image]
  congr 1

/-- Reflecting first inverts the orbit index and flips the flag. -/
theorem eOrb_after_refl (s : Finset Cell) (k : ℕ) (hk : k ≤ 6) (e : Bool) :
    eOrb (eOrb s 0 true) k e = eOrb s (6 - k) (!e) := by
  unfold eOrb
  rw [canonicalPosition_image_equivariant (evenEquivariant_ptMap k e)]
  rw [Finset.image_image]
  congr 1
  apply Finset.image_congr
  intro c _
  show ptMap k e (ptMap 0 true c) = ptMap (6 - k) (!e) c
  exact ptMap_refl k hk e c

/-- A rotation applied to an orbit entry with unreflected flag. -/
theorem rot_after_eOrb (s : Finset Cell) (k : ℕ) :
    canonicalPosition ((eOrb s k false).image rotCell) = eOrb s (k + 1) false := by
  unfold eOrb
  rw [canonicalPosition_image_equivariant evenEquivariant_rotCell]
  rw [Finset.image_image]
  congr 1
  apply Finset.image_congr
  intro c _
  show rotCell (ptMap k false c) = ptMap (k + 1) false c
  show rotCell (rotIter k c) = rotIter (k + 1) c
  exact (rotIter_succ_out k c).symm

/-- A reflection applied to an orbit entry with unreflected flag. -/
theorem refl_after_eOrb (s : Finset Cell) (k : ℕ) :
    canonicalPosition ((eOrb s k false).image reflCell) = eOrb s k true := by
  unfold eOrb
  rw [canonicalPosition_image_equivariant evenEquivariant_reflCell]
  rw [Finset.image_image]
  congr 1

/-- Weak lexicographic order on coordinate pairs, the order of Python
tuple comparison. -/
def pairLe (a b : ℤ × ℤ) : Prop := a.1 < b.1 ∨ (a.1 = b.1 ∧ a.2 ≤ b.2)

/-- Strict lexicographic order on coordinate pairs. -/
def pairLt (a b : ℤ × ℤ) : Prop := a.1 < b.1 ∨ (a.1 = b.1 ∧ a.2 < b.2)

instance (a b : ℤ × ℤ) : Decidable (pairLe a b) := by unfold pairLe; infer_instance

instance (a b : ℤ × ℤ) : Decidable (pairLt a b) := by unfold pairLt; infer_instance

instance : IsTrans (ℤ × ℤ) pairLe where
  trans := by intro a b c hab hbc; unfold pairLe at *; omega

instance : IsAntisymm (ℤ × ℤ) pairLe where
  antisymm := by
    intro a b hab hba
    unfold pairLe at *
    rcases a with ⟨a1, a2⟩
    rcases b with ⟨b1, b2⟩
    simp only [Prod.mk.injEq]
    dsimp only at hab hba
    omega

instance : IsTotal (ℤ × ℤ) pairLe where
  total := by intro a b; unfold pairLe; omega

/-- The sorted key of a cell set: the sorted list of coordinate pairs,
as in Polyiamond.canonical_form and the generator dedup key. -/
def cellKey (s : Finset Cell) : List (ℤ × ℤ) :=
  (s.image (fun c => (c.x, c.y))).sort pairLe

/-- Python list and tuple comparison: strict lexicographic order on lists,
shorter prefixes first. -/
def keyLt : List (ℤ × ℤ) → List (ℤ × ℤ) → Bool
  | [], [] => false
  | [], _ :: _ => true
  | _ :: _, [] => false
  | a :: as, b :: bs => if pairLt a b then true else if pairLt b a then false else keyLt as bs

/-- keyLt is irreflexive. -/
theorem keyLt_irrefl (a : List (ℤ × ℤ)) : keyLt a a = false := by
  induction a with
  | nil => rfl
  | cons x xs ih =>
      unfold keyLt
      rw [if_neg (by unfold pairLt; omega), if_neg (by unfold pairLt; omega)]
      exact ih

/-- keyLt is transitive. -/
theorem keyLt_trans (a b c : List (ℤ × ℤ)) (hab : keyLt a b = true) (hbc : keyLt b c = true) :
    keyLt a c = true := by
  induction a generalizing b c with
  | nil =>
      cases b with
      | nil => simp [keyLt] at hab
      | cons y ys =>
          cases c with
          | nil => simp [keyLt] at hbc
          | cons z zs => rfl
  | cons x xs ih =>
      cases b with
      | nil => simp [keyLt] at hab
      | cons y ys =>
          cases c with
          | nil => simp [keyLt] at hbc
          | cons z zs =>
              unfold keyLt at hab hbc ⊢
              by_cases h1 : pairLt x y <;> by_cases h2 : pairLt y x <;>
                by_cases h3 : pairLt y z <;> by_cases h4 : pairLt z y <;>
                  by_cases h5 : pairLt x z <;> by_cases h6 : pairLt z x <;>
                    simp only [h1, h2, h3, h4, h5, h6, if_true, if_false, Bool.false_eq_true,
                      eq_self_iff_true, not_true, not_false_iff] at hab hbc ⊢ <;>
                      first
                        | rfl
                        | exact ih ys zs hab hbc
                        | (exfalso; unfold pairLt at h1 h2 h3 h4 h5 h6; omega)

/-- keyLt is total up to equality. -/
theorem keyLt_total (a b : List (ℤ × ℤ)) (hab : keyLt a b = false) (hba : keyLt b a = false) :
    a = b := by
  induction a generalizing b with
  | nil =>
      cases b with
      | nil => rfl
      | cons y ys => exact absurd hab (by simp [keyLt])
  | cons x xs ih =>
      cases b with
      | nil => exact absurd hba (by simp [keyLt])
      | cons y ys =>
          unfold keyLt at hab hba
          by_cases h1 : pairLt x y
          · rw [if_pos h1] at hab
            exact absurd hab (by simp)
          · rw [if_neg h1] at hab
            by_cases h2 : pairLt y x
            · rw [if_pos h2] at hba
              exact absurd hba (by simp)
            · rw [if_neg h1] at hba
              rw [if_neg h2] at hab hba
              have hxy : x = y := by
                rcases x with ⟨x1, x2⟩
                rcases y with ⟨y1, y2⟩
                unfold pairLt at h1 h2
                simp only [Prod.mk.injEq]
                dsimp only at h1 h2
                omega
              rw [hxy, ih ys hab hba]

/-- One comparison step of the Python min. -/
def pyMinStep (best q : Polyiamond) : Polyiamond :=
  if keyLt (cellKey q.cells) (cellKey best.cells) then q else best

/-- Python min over a list keyed by the sorted cell list; the first
element attaining the least key wins. Junk on the empty list, where the
Python call would raise. -/
def pyMin (l : List Polyiamond) : Polyiamond :=
  match l with
  | [] => ⟨∅⟩
  | h :: t => t.foldl pyMinStep h

/-- Polyiamond.canonical_form: the key-least of the twelve transforms. -/
def Polyiamond.canonicalForm (p : Polyiamond) : Polyiamond := pyMin p.allTransformations

/-- Polyiamond.canonical_cells. -/
def Polyiamond.canonicalCells (p : Polyiamond) : Finset Cell := p.canonicalForm.cells

/-- The fold underlying pyMin returns its seed or a list element. -/
theorem pyMin_fold_mem (t : List Polyiamond) (b : Polyiamond) :
    t.foldl pyMinStep b = b ∨ t.foldl pyMinStep b ∈ t := by
  induction t generalizing b with
  | nil => exact Or.inl rfl
  | cons q qs ih =>
      rw [List.foldl_cons]
      by_cases hq : keyLt (cellKey q.cells) (cellKey b.cells) = true
      · have hstep : pyMinStep b q = q := by unfold pyMinStep; rw [if_pos hq]
        rw [hstep]
        rcases ih q with h | h
        · exact Or.inr (by rw [h]; exact List.mem_cons_self q qs)
        · exact Or.inr (List.mem_cons_of_mem q h)
      · have hstep : pyMinStep b q = b := by
          unfold pyMinStep
          rw [if_neg (by simpa using hq)]
        rw [hstep]
        rcases ih b with h | h
        · exact Or.inl h
        · exact Or.inr (List.mem_cons_of_mem q h)

/-- No seed or list element has a key strictly below the fold result. -/
theorem pyMin_fold_le (t : List Polyiamond) (b : Polyiamond) :
    ∀ q, (q = b ∨ q ∈ t) →
      keyLt (cellKey q.cells) (cellKey ((t.foldl pyMinStep b)).cells) = false := by
  induction t generalizing b with
  | nil =>
      rintro q (rfl | h)
      · exact keyLt_irrefl _
      · exact absurd h (List.not_mem_nil q)
  | cons r rs ih =>
      have hseed : ∀ b2 : Polyiamond,
          keyLt (cellKey b2.cells) (cellKey ((rs.foldl pyMinStep b2)).cells) = false :=
        fun b2 => ih b2 b2 (Or.inl rfl)
      rintro q (rfl | hq)
      · rw [List.foldl_cons]
        by_cases hr : keyLt (cellKey r.cells) (cellKey q.cells) = true
        · have hb' : pyMinStep q r = r := by unfold pyMinStep; rw [if_pos hr]
          rw [hb']
          by_contra hcon
          rw [Bool.not_eq_false] at hcon
          have htr := keyLt_trans _ _ _ hr hcon
          have := hseed r
          rw [htr] at this
          exact absurd this (by simp)
        · have hb' : pyMinStep q r = q := by
            unfold pyMinStep
            rw [if_neg (by simpa using hr)]
          rw [hb']
          exact hseed q
      · rw [List.foldl_cons]
        rcases List.mem_cons.1 hq with rfl | hq2
        · by_cases hr : keyLt (cellKey q.cells) (cellKey b.cells) = true
          · have hb' : pyMinStep b q = q := by unfold pyMinStep; rw [if_pos hr]
            rw [hb']
            exact hseed q
          · have hb' : pyMinStep b q = b := by
              unfold pyMinStep
              rw [if_neg (by simpa using hr)]
            rw [hb']
            by_contra hcon
            rw [Bool.not_eq_false] at hcon
            by_cases hbr : keyLt (cellKey b.cells) (cellKey q.cells) = true
            · have htr := keyLt_trans _ _ _ hbr hcon
              have := hseed b
              rw [htr] at this
              exact absurd this (by simp)
            · have heq := keyLt_total (cellKey q.cells) (cellKey b.cells)
                (by simpa using hr) (by simpa using hbr)
              rw [heq] at hcon
              have := hseed b
              rw [hcon] at this
              exact absurd this (by simp)
        · exact ih (pyMinStep b r) q (Or.inr hq2)

/-- The Python min of a nonempty list is an element of least key. -/
theorem pyMin_spec (l : List Polyiamond) (hl : l ≠ []) :
    pyMin l ∈ l ∧ ∀ q ∈ l, keyLt (cellKey q.cells) (cellKey ((pyMin l)).cells) = false := by
  cases l with
  | nil => exact absurd rfl hl
  | cons h t =>
      constructor
      · show t.foldl pyMinStep h ∈ h :: t
        rcases pyMin_fold_mem t h with he | he
        · rw [he]; exact List.mem_cons_self h t
        · exact List.mem_cons_of_mem h he
      · intro q hq
        rcases List.mem_cons.1 hq with rfl | hq2
        · exact pyMin_fold_le t q q (Or.inl rfl)
        · exact pyMin_fold_le t h q (Or.inr hq2)

/-- Membership in the sorted key reflects membership in the set. -/
theorem mem_cellKey (s : Finset Cell) (a : Cell) :
    (a.x, a.y) ∈ cellKey s ↔ a ∈ s := by
  unfold cellKey
  rw [Finset.mem_sort]
  simp only [Finset.mem_image]
  constructor
  · rintro ⟨c, hc, hceq⟩
    have : c = a := by
      rcases c with ⟨cx, cy⟩
      rcases a with ⟨ax, ay⟩
      simp only [Prod.mk.injEq] at hceq
      simp only [Cell.mk.injEq]
      exact hceq
    exact this ▸ hc
  · intro ha
    exact ⟨a, ha, rfl⟩

/-- The sorted key determines the cell set. -/
theorem cellKey_inj {s t : Finset Cell} (h : cellKey s = cellKey t) : s = t := by
  apply Finset.ext
  intro a
  rw [← mem_cellKey s a, ← mem_cellKey t a, h]

/-- Two nonempty lists carrying the same keys have Python minima with the
same cells. -/
theorem pyMin_cells_congr (l1 l2 : List Polyiamond) (h1 : l1 ≠ []) (h2 : l2 ≠ [])
    (hk : ∀ k, (∃ q ∈ l1, q.cells = k) ↔ (∃ q ∈ l2, q.cells = k)) :
    (pyMin l1).cells = (pyMin l2).cells := by
  obtain ⟨hm1, hle1⟩ := pyMin_spec l1 h1
  obtain ⟨hm2, hle2⟩ := pyMin_spec l2 h2
  obtain ⟨q2, hq2, hq2e⟩ := (hk (pyMin l1).cells).1 ⟨pyMin l1, hm1, rfl⟩
  obtain ⟨q1, hq1, hq1e⟩ := (hk (pyMin l2).cells).2 ⟨pyMin l2, hm2, rfl⟩
  have ha : keyLt (cellKey (pyMin l1).cells) (cellKey ((pyMin l2)).cells) = false := by
    have := hle2 q2 hq2
    rw [hq2e] at this
    exact this
  have hb : keyLt (cellKey (pyMin l2).cells) (cellKey ((pyMin l1)).cells) = false := by
    have := hle1 q1 hq1
    rw [hq1e] at this
    exact this
  exact cellKey_inj (keyLt_total _ _ ha hb)

/-- The identity transform leaves a set unchanged. -/
theorem image_ptMap00 (s : Finset Cell) : s.image (ptMap 0 false) = s := by
  have h : ptMap 0 false = id := funext fun c => rfl
  rw [h, Finset.image_id]

/-- The unrotated unreflected orbit entry is the canonicalized set. -/
theorem eOrb_zero_false (s : Finset Cell) : eOrb s 0 false = canonicalPosition s := by
  unfold eOrb
  rw [image_ptMap00]

/-- Orbit entries are canonically positioned. -/
theorem eOrb_canonical (s : Finset Cell) (k : ℕ) (e : Bool) :
    eOrb s k e = canonicalPosition (eOrb s k e) := by
  unfold eOrb
  rw [canonicalPosition_idem]

/-- Rotation in orbit-entry form. -/
theorem rotate60_cells_of_eOrb (q : Polyiamond) (s : Finset Cell) (k : ℕ)
    (hq : q.cells = eOrb s k false) : q.rotate60.cells = eOrb s (k + 1) false := by
  rw [rotate60_cells, hq, rot_after_eOrb]

/-- Reflection in orbit-entry form. -/
theorem reflectX_cells_of_eOrb (q : Polyiamond) (s : Finset Cell) (k : ℕ)
    (hq : q.cells = eOrb s k false) : q.reflectX.cells = eOrb s k true := by
  rw [reflectX_cells, hq, refl_after_eOrb]

/-- The canonical list of the twelve orbit entries of a cell set. -/
def orbList (s : Finset Cell) : List (Finset Cell) :=
  [eOrb s 0 false, eOrb s 0 true, eOrb s 1 false, eOrb s 1 true,
   eOrb s 2 false, eOrb s 2 true, eOrb s 3 false, eOrb s 3 true,
   eOrb s 4 false, eOrb s 4 true, eOrb s 5 false, eOrb s 5 true]

/-- The twelve transformations of a canonically positioned polyiamond
carry exactly the twelve orbit entries of its cells, in index order. -/
theorem allTransformations_cells (p : Polyiamond) (hp : p.cells = canonicalPosition p.cells) :
    p.allTransformations.map Polyiamond.cells = orbList p.cells := by
  have hc0 : p.cells = eOrb p.cells 0 false := by rw [eOrb_zero_false]; exact hp
  have hc1 : p.rotate60.cells = eOrb p.cells 1 false := by
    rw [rotate60_cells]
    rfl
  have hc2 : p.rotate60.rotate60.cells = eOrb p.cells 2 false :=
    rotate60_cells_of_eOrb _ _ _ hc1
  have hc3 : p.rotate60.rotate60.rotate60.cells = eOrb p.cells 3 false :=
    rotate60_cells_of_eOrb _ _ _ hc2
  have hc4 : p.rotate60.rotate60.rotate60.rotate60.cells = eOrb p.cells 4 false :=
    rotate60_cells_of_eOrb _ _ _ hc3
  have hc5 : p.rotate60.rotate60.rotate60.rotate60.rotate60.cells = eOrb p.cells 5 false :=
    rotate60_cells_of_eOrb _ _ _ hc4
  have hr0 : p.reflectX.cells = eOrb p.cells 0 true :=
    reflectX_cells_of_eOrb _ _ _ hc0
  have hr1 : p.rotate60.reflectX.cells = eOrb p.cells 1 true :=
    reflectX_cells_of_eOrb _ _ _ hc1
  have hr2 : p.rotate60.rotate60.reflectX.cells = eOrb p.cells 2 true :=
    reflectX_cells_of_eOrb _ _ _ hc2
  have hr3 : p.rotate60.rotate60.rotate60.reflectX.cells = eOrb p.cells 3 true :=
    reflectX_cells_of_eOrb _ _ _ hc3
  have hr4 : p.rotate60.rotate60.rotate60.rotate60.reflectX.cells = eOrb p.cells 4 true :=
    reflectX_cells_of_eOrb _ _ _ hc4
  have hr5 : p.rotate60.rotate60.rotate60.rotate60.rotate60.reflectX.cells
      = eOrb p.cells 5 true :=
    reflectX_cells_of_eOrb _ _ _ hc5
  show [p.cells, p.reflectX.cells,
    p.rotate60.cells, p.rotate60.reflectX.cells,
    p.rotate60.rotate60.cells, p.rotate60.rotate60.reflectX.cells,
    p.rotate60.rotate60.rotate60.cells, p.rotate60.rotate60.rotate60.reflectX.cells,
    p.rotate60.rotate60.rotate60.rotate60.cells,
    p.rotate60.rotate60.rotate60.rotate60.reflectX.cells,
    p.rotate60.rotate60.rotate60.rotate60.rotate60.cells,
    p.rotate60.rotate60.rotate60.rotate60.rotate60.reflectX.cells] = orbList p.cells
  rw [hc1, hc2, hc3, hc4, hc5, hr0, hr1, hr2, hr3, hr4, hr5]
  unfold orbList
  rw [← hc0]

/-- The orbit list of a rotated set is the orbit list of the original,
cyclically shifted. -/
theorem orbList_rot (s : Finset Cell) :
    orbList (eOrb s 1 false) =
      [eOrb s 1 false, eOrb s 1 true, eOrb s 2 false, eOrb s 2 true,
       eOrb s 3 false, eOrb s 3 true, eOrb s 4 false, eOrb s 4 true,
       eOrb s 5 false, eOrb s 5 true, eOrb s 0 false, eOrb s 0 true] := by
  unfold orbList
  rw [eOrb_after_rot s 0 false, eOrb_after_rot s 0 true,
    eOrb_after_rot s 1 false, eOrb_after_rot s 1 true,
    eOrb_after_rot s 2 false, eOrb_after_rot s 2 true,
    eOrb_after_rot s 3 false, eOrb_after_rot s 3 true,
    eOrb_after_rot s 4 false, eOrb_after_rot s 4 true,
    eOrb_after_rot s 5 false, eOrb_after_rot s 5 true,
    eOrb_six s false, eOrb_six s true]

/-- The orbit list of a reflected set carries the same twelve entries,
with inverted rotation indices and flipped flags. -/
theorem orbList_refl (s : Finset Cell) :
    orbList (eOrb s 0 true) =
      [eOrb s 0 true, eOrb s 0 false, eOrb s 5 true, eOrb s 5 false,
       eOrb s 4 true, eOrb s 4 false, eOrb s 3 true, eOrb s 3 false,
       eOrb s 2 true, eOrb s 2 false, eOrb s 1 true, eOrb s 1 false] := by
  unfold orbList
  rw [eOrb_after_refl s 0 (by omega) false, eOrb_after_refl s 0 (by omega) true,
    eOrb_after_refl s 1 (by omega) false, eOrb_after_refl s 1 (by omega) true,
    eOrb_after_refl s 2 (by omega) false, eOrb_after_refl s 2 (by omega) true,
    eOrb_after_refl s 3 (by omega) false, eOrb_after_refl s 3 (by omega) true,
    eOrb_after_refl s 4 (by omega) false, eOrb_after_refl s 4 (by omega) true,
    eOrb_after_refl s 5 (by omega) false, eOrb_after_refl s 5 (by omega) true]
  simp only [Bool.not_false, Bool.not_true]
  norm_num
  exact ⟨eOrb_six s true, eOrb_six s false⟩

/-- The twelve-transform list is never empty. -/
theorem allTransformations_ne_nil (p : Polyiamond) : p.allTransformations ≠ [] := by
  show [p, p.reflectX, p.rotate60, p.rotate60.reflectX,
    p.rotate60.rotate60, p.rotate60.rotate60.reflectX,
    p.rotate60.rotate60.rotate60, p.rotate60.rotate60.rotate60.reflectX,
    p.rotate60.rotate60.rotate60.rotate60, p.rotate60.rotate60.rotate60.rotate60.reflectX,
    p.rotate60.rotate60.rotate60.rotate60.rotate60,
    p.rotate60.rotate60.rotate60.rotate60.rotate60.reflectX] ≠ []
  simp

/-- Existence of a transform with given cells, through the mapped list. -/
theorem exists_cells_iff (l : List Polyiamond) (k : Finset Cell) :
    (∃ q ∈ l, q.cells = k) ↔ k ∈ l.map Polyiamond.cells := by
  rw [List.mem_map]

/-- Rotating a canonically positioned polyiamond does not change its
canonical cells. -/
theorem canonicalCells_rotate60 (p : Polyiamond) (hp : p.cells = canonicalPosition p.cells) :
    p.rotate60.canonicalCells = p.canonicalCells := by
  unfold Polyiamond.canonicalCells Polyiamond.canonicalForm
  apply pyMin_cells_congr _ _ (allTransformations_ne_nil _) (allTransformations_ne_nil _)
  intro k
  rw [exists_cells_iff, exists_cells_iff]
  rw [allTransformations_cells p hp]
  rw [allTransformations_cells p.rotate60
    (by rw [rotate60_cells]; rw [canonicalPosition_idem])]
  rw [show p.rotate60.cells = eOrb p.cells 1 false from by rw [rotate60_cells]; rfl]
  rw [orbList_rot]
  unfold orbList
  simp only [List.mem_cons, List.not_mem_nil, or_false]
  tauto

/-- Reflecting a canonically positioned polyiamond does not change its
canonical cells. -/
theorem canonicalCells_reflectX (p : Polyiamond) (hp : p.cells = canonicalPosition p.cells) :
    p.reflectX.canonicalCells = p.canonicalCells := by
  unfold Polyiamond.canonicalCells Polyiamond.canonicalForm
  apply pyMin_cells_congr _ _ (allTransformations_ne_nil _) (allTransformations_ne_nil _)
  intro k
  rw [exists_cells_iff, exists_cells_iff]
  rw [allTransformations_cells p hp]
  rw [allTransformations_cells p.reflectX
    (by rw [reflectX_cells]; rw [canonicalPosition_idem])]
  rw [show p.reflectX.cells = eOrb p.cells 0 true from by rw [reflectX_cells]; rfl]
  rw [orbList_refl]
  unfold orbList
  simp only [List.mem_cons, List.not_mem_nil, or_false]
  tauto

/-- A sequence of symmetry operations: true applies rotate_60 and false
applies reflect_x. -/
def applyOps : List Bool → Polyiamond → Polyiamond
  | [], p => p
  | true :: ops, p => applyOps ops p.rotate60
  | false :: ops, p => applyOps ops p.reflectX

/-- Any operation sequence preserves the canonical cells of a canonically
positioned polyiamond. -/
theorem applyOps_canonicalCells (ops : List Bool) (p : Polyiamond)
    (hp : p.cells = canonicalPosition p.cells) :
    (applyOps ops p).canonicalCells = p.canonicalCells := by
  induction ops generalizing p with
  | nil => rfl
  | cons b ops ih =>
      cases b
      · show (applyOps ops p.reflectX).canonicalCells = _
        rw [ih p.reflectX (by rw [reflectX_cells, canonicalPosition_idem])]
        exact canonicalCells_reflectX p hp
      · show (applyOps ops p.rotate60).canonicalCells = _
        rw [ih p.rotate60 (by rw [rotate60_cells, canonicalPosition_idem])]
        exact canonicalCells_rotate60 p hp

/-- C5: for every nonempty connected polyiamond (stored canonically, as
the data model guarantees for constructor-produced shapes), the canonical
form of rotate_60 of the shape has the same cell set as the canonical form
of the shape, and likewise for reflect_x and for arbitrary compositions of
the two. -/
theorem C5_canonical_form_invariant (p : Polyiamond)
    (hne : p.cells.Nonempty) (hconn : p.isConnected = true)
    (hp : p.cells = canonicalPosition p.cells) :
    p.rotate60.canonicalCells = p.canonicalCells ∧
    p.reflectX.canonicalCells = p.canonicalCells ∧
    ∀ ops : List Bool, (applyOps ops p).canonicalCells = p.canonicalCells :=
  ⟨canonicalCells_rotate60 p hp, canonicalCells_reflectX p hp,
    fun ops => applyOps_canonicalCells ops p hp⟩

/-- Witness for C5 at the single up triangle with one rotation. -/
theorem C5_canonical_form_invariant_witness :
    (Polyiamond.ofCells {(⟨0, 0⟩ : Cell)}).cells.Nonempty ∧
    (Polyiamond.ofCells {(⟨0, 0⟩ : Cell)}).isConnected = true ∧
    (Polyiamond.ofCells {(⟨0, 0⟩ : Cell)}).rotate60.canonicalCells
      = (Polyiamond.ofCells {(⟨0, 0⟩ : Cell)}).canonicalCells :=
  ⟨by decide, by decide,
    (C5_canonical_form_invariant _ (by decide) (by decide) (by decide)).1⟩

/-- The reference rotation is injective: five further rotations undo it. -/
theorem rotCell_injective : Function.Injective rotCell := by
  intro a b h
  have ha := rotCell_six a
  have hb := rotCell_six b
  rw [h] at ha
  rw [ha] at hb
  exact hb

/-- The reference reflection is injective. -/
theorem reflCell_injective : Function.Injective reflCell := by
  intro a b h
  have := congrArg reflCell h
  rwa [reflCell_two, reflCell_two] at this

/-- Iterated rotations are injective. -/
theorem rotIter_injective (k : ℕ) : Function.Injective (rotIter k) := by
  induction k with
  | zero => exact fun a b h => h
  | succ n ih =>
      intro a b h
      rw [rotIter_succ_out, rotIter_succ_out] at h
      exact ih (rotCell_injective h)

/-- All twelve point transforms are injective. -/
theorem ptMap_injective (k : ℕ) (e : Bool) : Function.Injective (ptMap k e) := by
  cases e
  · exact fun a b h => rotIter_injective k h
  · exact fun a b h => rotIter_injective k (reflCell_injective h)

/-- Orbit entries have the cardinality of the source set. -/
theorem eOrb_card (s : Finset Cell) (k : ℕ) (e : Bool) : (eOrb s k e).card = s.card := by
  unfold eOrb
  rw [canonicalPosition_card, Finset.card_image_of_injective s (ptMap_injective k e)]

/-- Every entry of the transform list has cells equal to the raw cells or
to an orbit entry. -/
theorem allTransformations_entry (p : Polyiamond) :
    ∀ q ∈ p.allTransformations,
      q.cells = p.cells ∨ ∃ k, k ≤ 5 ∧ ∃ e : Bool, q.cells = eOrb p.cells k e := by
  have hc1 : p.rotate60.cells = eOrb p.cells 1 false := by rw [rotate60_cells]; rfl
  have hc2 : p.rotate60.rotate60.cells = eOrb p.cells 2 false :=
    rotate60_cells_of_eOrb _ _ _ hc1
  have hc3 : p.rotate60.rotate60.rotate60.cells = eOrb p.cells 3 false :=
    rotate60_cells_of_eOrb _ _ _ hc2
  have hc4 : p.rotate60.rotate60.rotate60.rotate60.cells = eOrb p.cells 4 false :=
    rotate60_cells_of_eOrb _ _ _ hc3
  have hc5 : p.rotate60.rotate60.rotate60.rotate60.rotate60.cells = eOrb p.cells 5 false :=
    rotate60_cells_of_eOrb _ _ _ hc4
  intro q hq
  have hq2 : q ∈ [p, p.reflectX, p.rotate60, p.rotate60.reflectX,
      p.rotate60.rotate60, p.rotate60.rotate60.reflectX,
      p.rotate60.rotate60.rotate60, p.rotate60.rotate60.rotate60.reflectX,
      p.rotate60.rotate60.rotate60.rotate60, p.rotate60.rotate60.rotate60.rotate60.reflectX,
      p.rotate60.rotate60.rotate60.rotate60.rotate60,
      p.rotate60.rotate60.rotate60.rotate60.rotate60.reflectX] := hq
  simp only [List.mem_cons, List.not_mem_nil, or_false] at hq2
  rcases hq2 with rfl | rfl | rfl | rfl | rfl | rfl | rfl | rfl | rfl | rfl | rfl | rfl
  · exact Or.inl rfl
  · exact Or.inr ⟨0, by omega, true, by rw [reflectX_cells]; rfl⟩
  · exact Or.inr ⟨1, by omega, false, hc1⟩
  · exact Or.inr ⟨1, by omega, true, reflectX_cells_of_eOrb _ _ _ hc1⟩
  · exact Or.inr ⟨2, by omega, false, hc2⟩
  · exact Or.inr ⟨2, by omega, true, reflectX_cells_of_eOrb _ _ _ hc2⟩
  · exact Or.inr ⟨3, by omega, false, hc3⟩
  · exact Or.inr ⟨3, by omega, true, reflectX_cells_of_eOrb _ _ _ hc3⟩
  · exact Or.inr ⟨4, by omega, false, hc4⟩
  · exact Or.inr ⟨4, by omega, true, reflectX_cells_of_eOrb _ _ _ hc4⟩
  · exact Or.inr ⟨5, by omega, false, hc5⟩
  · exact Or.inr ⟨5, by omega, true, reflectX_cells_of_eOrb _ _ _ hc5⟩

/-- Congruence of a placement cell set to the base shape, in the sense of
the specification: the image under one of the twelve point transforms,
composed with a translation of even coordinate sum. -/
def CongruentTo (S P : Finset Cell) : Prop :=
  ∃ k, k ≤ 5 ∧ ∃ e : Bool, ∃ dx dy : ℤ, 2 ∣ (dx + dy) ∧
    P = TriangularGrid.translate (S.image (ptMap k e)) dx dy

/-- Translating a transform entry by an even translation produces a set
congruent to the base cells. -/
theorem congruentTo_of_entry (p : Polyiamond) (q : Polyiamond)
    (hq : q.cells = p.cells ∨ ∃ k, k ≤ 5 ∧ ∃ e : Bool, q.cells = eOrb p.cells k e)
    (dx dy : ℤ) (hpar : 2 ∣ dx + dy) :
    CongruentTo p.cells (TriangularGrid.translate q.cells dx dy) := by
  rcases hq with hq | ⟨k, hk, e, hq⟩
  · exact ⟨0, by omega, false, dx, dy, hpar, by rw [hq, image_ptMap00]⟩
  · obtain ⟨ex, ey, hev, heq⟩ := canonicalPosition_even_translate (p.cells.image (ptMap k e))
    refine ⟨k, hk, e, ex + dx, ey + dy, by omega, ?_⟩
    rw [hq]
    unfold eOrb
    rw [heq, tg_translate_comp]

/-- Transform entries have the cardinality of the base cells. -/
theorem entry_card (p : Polyiamond) (q : Polyiamond)
    (hq : q.cells = p.cells ∨ ∃ k, k ≤ 5 ∧ ∃ e : Bool, q.cells = eOrb p.cells k e) :
    q.cells.card = p.cells.card := by
  rcases hq with hq | ⟨k, _, e, hq⟩
  · rw [hq]
  · rw [hq, eOrb_card]

/-- Weak lexicographic order on cells, for deterministic iteration over
cell sets. -/
def cellLe (a b : Cell) : Prop := a.x < b.x ∨ (a.x = b.x ∧ a.y ≤ b.y)

instance (a b : Cell) : Decidable (cellLe a b) := by unfold cellLe; infer_instance

instance : IsTrans Cell cellLe where
  trans := by intro a b c hab hbc; unfold cellLe at *; omega

instance : IsAntisymm Cell cellLe where
  antisymm := by
    intro a b hab hba
    unfold cellLe at *
    rcases a with ⟨a1, a2⟩
    rcases b with ⟨b1, b2⟩
    simp only [Cell.mk.injEq]
    dsimp only at hab hba
    omega

instance : IsTotal Cell cellLe where
  total := by intro a b; unfold cellLe; omega

/-- A deterministic list of the cells of a finite set. Python iterates
sets in an unspecified order; every property proved below is independent
of the order, so a sorted order is used. -/
def cellList (s : Finset Cell) : List Cell := s.sort cellLe

/-- Membership in the iteration list. -/
theorem mem_cellList (s : Finset Cell) (a : Cell) : a ∈ cellList s ↔ a ∈ s :=
  Finset.mem_sort cellLe

/-- A placement of the shape, from corona_sat.Placement: the covered
cells, the transform index and the translation. Python equality compares
the cells only; the dedup logic below does the same explicitly. -/
structure Placement where
  cells : Finset Cell
  transformId : ℕ
  dx : ℤ
  dy : ℤ
deriving DecidableEq

/-- The placement enumeration from corona_sat.find_valid_placements: for
every transform, boundary cell and base cell, align the base cell with the
boundary cell, skip odd-parity translations and overlaps with the occupied
set, and deduplicate by cell set. -/
def findValidPlacements (p : Polyiamond) (occupied bnd : Finset Cell) : List Placement :=
  (p.allTransformations.enum).foldl (fun acc1 tq =>
    (cellList bnd).foldl (fun acc2 b =>
      (cellList tq.2.cells).foldl (fun acc3 a =>
        if ((b.x - a.x) + (b.y - a.y)) % 2 ≠ 0 then acc3
        else if ¬ Disjoint (TriangularGrid.translate tq.2.cells (b.x - a.x) (b.y - a.y))
            occupied then acc3
        else if ∃ q ∈ acc3,
            q.cells = TriangularGrid.translate tq.2.cells (b.x - a.x) (b.y - a.y) then acc3
        else acc3 ++
          [⟨TriangularGrid.translate tq.2.cells (b.x - a.x) (b.y - a.y),
            tq.1, b.x - a.x, b.y - a.y⟩]) acc2) acc1) []

/-- A fold preserves an invariant preserved by every step on list
elements. -/
theorem foldl_preserve {α β : Type} (inv : β → Prop) :
    ∀ (l : List α) (f : β → α → β),
      (∀ acc x, x ∈ l → inv acc → inv (f acc x)) →
      ∀ acc, inv acc → inv (l.foldl f acc) := by
  intro l
  induction l with
  | nil => intro f _ acc h; exact h
  | cons x xs ih =>
      intro f hstep acc h
      rw [List.foldl_cons]
      exact ih f (fun a y hy hi => hstep a y (List.mem_cons_of_mem x hy) hi) _
        (hstep acc x (List.mem_cons_self x xs) h)

/-- The property of a single valid placement, following the specification
wording. -/
def PlacementOK (p : Polyiamond) (occupied bnd : Finset Cell) (pl : Placement) : Prop :=
  Disjoint pl.cells occupied ∧ (pl.cells ∩ bnd).Nonempty ∧
  pl.cells.card = p.cells.card ∧ CongruentTo p.cells pl.cells

/-- The invariant of the placement accumulator: every entry is valid, and
entries are pairwise distinct as cell sets. -/
def GoodAcc (p : Polyiamond) (occupied bnd : Finset Cell) (l : List Placement) : Prop :=
  (∀ pl ∈ l, PlacementOK p occupied bnd pl) ∧
  List.Pairwise (fun a b : Placement => a.cells ≠ b.cells) l

/-- The enumerated placements are valid and pairwise distinct. -/
theorem findValidPlacements_good (p : Polyiamond) (occupied bnd : Finset Cell) :
    GoodAcc p occupied bnd (findValidPlacements p occupied bnd) := by
  unfold findValidPlacements
  apply foldl_preserve (GoodAcc p occupied bnd) _ _ ?_ _
    ⟨fun pl hpl => absurd hpl (List.not_mem_nil pl), List.Pairwise.nil⟩
  intro acc1 tq htq hinv1
  have hqmem : tq.2 ∈ p.allTransformations := by
    have h1 : tq ∈ (List.range p.allTransformations.length).zip p.allTransformations := by
      rw [← List.enum_eq_zip_range]
      exact htq
    have h2 := List.of_mem_zip (show (tq.1, tq.2) ∈ _ from h1)
    exact h2.2
  have hent := allTransformations_entry p tq.2 hqmem
  apply foldl_preserve (GoodAcc p occupied bnd) _ _ ?_ _ hinv1
  intro acc2 b hb hinv2
  apply foldl_preserve (GoodAcc p occupied bnd) _ _ ?_ _ hinv2
  intro acc3 a ha hinv3
  by_cases h1 : ((b.x - a.x) + (b.y - a.y)) % 2 ≠ 0
  case pos =>
    rw [if_pos h1]
    exact hinv3
  case neg =>
  rw [if_neg h1]
  by_cases h2 : ¬ Disjoint (TriangularGrid.translate tq.2.cells (b.x - a.x) (b.y - a.y)) occupied
  case pos =>
    rw [if_pos h2]
    exact hinv3
  case neg =>
  rw [if_neg h2]
  by_cases h3 : ∃ q ∈ acc3,
      q.cells = TriangularGrid.translate tq.2.cells (b.x - a.x) (b.y - a.y)
  case pos =>
    rw [if_pos h3]
    exact hinv3
  case neg =>
  rw [if_neg h3]
  constructor
  · intro pl hpl
    rcases List.mem_append.1 hpl with hin | hnew
    · exact hinv3.1 pl hin
    · rcases List.mem_singleton.1 hnew with rfl
      refine ⟨not_not.1 h2, ?_, ?_, ?_⟩
      · refine ⟨b, Finset.mem_inter.2 ⟨?_, (mem_cellList bnd b).1 hb⟩⟩
        rw [mem_translate]
        refine ⟨a, (mem_cellList _ a).1 ha, ?_⟩
        rcases b with ⟨bx, by2⟩
        simp only [Cell.mk.injEq]
        constructor <;> dsimp only <;> omega
      · show (TriangularGrid.translate tq.2.cells _ _).card = p.cells.card
        rw [card_translate]
        exact entry_card p tq.2 hent
      · exact congruentTo_of_entry p tq.2 hent _ _ (by omega)
  · rw [List.pairwise_append]
    refine ⟨hinv3.2, List.pairwise_singleton _ _, ?_⟩
    intro x hx y hy
    rcases List.mem_singleton.1 hy with rfl
    intro hcon
    exact h3 ⟨x, hx, hcon⟩

/-- C2: every placement returned by find_valid_placements is disjoint from
the occupied set, meets the boundary, has as many cells as the base shape
and is congruent to it under one of the twelve point transforms composed
with an even-parity translation; and no two returned placements have equal
cell sets. -/
theorem C2_placements_valid (p : Polyiamond) (occupied bnd : Finset Cell)
    (hne : p.cells.Nonempty) :
    (∀ pl ∈ findValidPlacements p occupied bnd,
      Disjoint pl.cells occupied ∧ (pl.cells ∩ bnd).Nonempty ∧
      pl.cells.card = p.cells.card ∧ CongruentTo p.cells pl.cells) ∧
    List.Pairwise (fun a b : Placement => a.cells ≠ b.cells)
      (findValidPlacements p occupied bnd) :=
  findValidPlacements_good p occupied bnd

/-- Witness for C2 at the single up triangle surrounded by its boundary. -/
theorem C2_placements_valid_witness :
    (Polyiamond.ofCells {(⟨0, 0⟩ : Cell)}).cells.Nonempty ∧
    List.Pairwise (fun a b : Placement => a.cells ≠ b.cells)
      (findValidPlacements (Polyiamond.ofCells {(⟨0, 0⟩ : Cell)}) {(⟨0, 0⟩ : Cell)}
        (TriangularGrid.boundary {(⟨0, 0⟩ : Cell)})) :=
  ⟨by decide,
    (C2_placements_valid (Polyiamond.ofCells {(⟨0, 0⟩ : Cell)}) {(⟨0, 0⟩ : Cell)}
      (TriangularGrid.boundary {(⟨0, 0⟩ : Cell)}) (by decide)).2⟩

/-- Satisfaction of a DIMACS-style literal by an assignment: a positive
literal asks for the variable to be true, a negative one for false. -/
def litSat (m : ℤ → Bool) (l : ℤ) : Bool := if 0 < l then m l else ! m (-l)

/-- Satisfaction of a clause: some literal is satisfied. -/
def clauseSat (m : ℤ → Bool) (cl : List ℤ) : Bool := cl.any (litSat m)

/-- Satisfaction of a formula: every clause is satisfied. -/
def cnfSat (m : ℤ → Bool) (f : List (List ℤ)) : Bool := f.all (clauseSat m)

/-- Variables of the placements covering a cell, from the cell_to_vars
dictionary in build_sat_formula: variable i + 1 stands for placement i. -/
def cellVars (ps : List Placement) (c : Cell) : List ℤ :=
  ps.enum.filterMap (fun ip => if c ∈ ip.2.cells then some ((ip.1 : ℤ) + 1) else none)

/-- The cells covered by at least one placement, the key set of
cell_to_vars. The Python dict iterates in insertion order; clause order is
irrelevant to satisfaction, so any deterministic order serves. -/
def coveringCells (ps : List Placement) : List Cell :=
  (ps.flatMap (fun pl => cellList pl.cells)).dedup

/-- All index-ordered pairs of a list, from the nested loop producing the
pairwise exclusion clauses. -/
def listPairs : List ℤ → List (ℤ × ℤ)
  | [] => []
  | x :: xs => xs.map (fun y => (x, y)) ++ listPairs xs

/-- The corona formula from build_sat_formula: pairwise exclusion clauses
for every doubly covered cell, then one coverage clause per boundary cell
(the empty clause when the cell is uncoverable). -/
def buildSatFormula (ps : List Placement) (bnd : Finset Cell) : List (List ℤ) :=
  ((coveringCells ps).flatMap
      (fun c => (listPairs (cellVars ps c)).map (fun vv => [-vv.1, -vv.2]))) ++
    (cellList bnd).map (fun c => cellVars ps c)

/-- The corona search from solve_corona, with the external CDCL solver
abstracted as an oracle returning a model or nothing: enumerate the
placements, short-circuit when there are none or when some boundary cell
is uncovered, then extract the placements whose variables the model sets
true. -/
def solveCorona (solver : List (List ℤ) → Option (ℤ → Bool)) (p : Polyiamond)
    (occupied bnd : Finset Cell) : Option (List Placement) :=
  if findValidPlacements p occupied bnd = [] then none
  else if (findValidPlacements p occupied bnd).foldl
      (fun acc pl => acc ∪ (pl.cells ∩ bnd)) ∅ ≠ bnd then none
  else
    match solver (buildSatFormula (findValidPlacements p occupied bnd) bnd) with
    | some m =>
        some ((findValidPlacements p occupied bnd).enum.filterMap
          (fun ip => if m ((ip.1 : ℤ) + 1) then some ip.2 else none))
    | none => none

/-- Membership in the covering-variable list. -/
theorem mem_cellVars (ps : List Placement) (c : Cell) (v : ℤ) :
    v ∈ cellVars ps c ↔ ∃ i pl, (i, pl) ∈ ps.enum ∧ c ∈ pl.cells ∧ v = (i : ℤ) + 1 := by
  unfold cellVars
  rw [List.mem_filterMap]
  constructor
  · rintro ⟨ip, hip, hif⟩
    split_ifs at hif with hc
    · exact ⟨ip.1, ip.2, hip, hc, (Option.some.inj hif).symm⟩
  · rintro ⟨i, pl, hip, hc, rfl⟩
    exact ⟨(i, pl), hip, by rw [if_pos hc]⟩

/-- Covering variables are positive. -/
theorem cellVars_pos (ps : List Placement) (c : Cell) (v : ℤ) (hv : v ∈ cellVars ps c) :
    0 < v := by
  rw [mem_cellVars] at hv
  obtain ⟨i, pl, _, _, rfl⟩ := hv
  positivity

/-- Cells of listed placements are covering cells. -/
theorem mem_coveringCells (ps : List Placement) (c : Cell) :
    c ∈ coveringCells ps ↔ ∃ pl ∈ ps, c ∈ pl.cells := by
  unfold coveringCells
  rw [List.mem_dedup, List.mem_flatMap]
  constructor
  · rintro ⟨pl, hpl, hc⟩
    exact ⟨pl, hpl, (mem_cellList _ _).1 hc⟩
  · rintro ⟨pl, hpl, hc⟩
    exact ⟨pl, hpl, (mem_cellList _ _).2 hc⟩

/-- Two distinct members of a list appear as a pair in one order or the
other. -/
theorem listPairs_mem {l : List ℤ} {u v : ℤ} (hu : u ∈ l) (hv : v ∈ l) (hne : u ≠ v) :
    (u, v) ∈ listPairs l ∨ (v, u) ∈ listPairs l := by
  induction l with
  | nil => exact absurd hu (List.not_mem_nil u)
  | cons x xs ih =>
      rcases List.mem_cons.1 hu with rfl | hu2
      · rcases List.mem_cons.1 hv with rfl | hv2
        · exact absurd rfl hne
        · left
          unfold listPairs
          exact List.mem_append.2 (Or.inl (List.mem_map.2 ⟨v, hv2, rfl⟩))
      · rcases List.mem_cons.1 hv with rfl | hv2
        · right
          unfold listPairs
          exact List.mem_append.2 (Or.inl (List.mem_map.2 ⟨u, hu2, rfl⟩))
        · rcases ih hu2 hv2 with h | h
          · left
            unfold listPairs
            exact List.mem_append.2 (Or.inr h)
          · right
            unfold listPairs
            exact List.mem_append.2 (Or.inr h)

/-- The exclusion clause of an ordered pair of covering variables is in
the formula. -/
theorem overlap_clause_mem (ps : List Placement) (bnd : Finset Cell) (c : Cell) (u v : ℤ)
    (hc : c ∈ coveringCells ps) (hp : (u, v) ∈ listPairs (cellVars ps c)) :
    [-u, -v] ∈ buildSatFormula ps bnd := by
  unfold buildSatFormula
  refine List.mem_append.2 (Or.inl (List.mem_flatMap.2 ⟨c, hc, ?_⟩))
  exact List.mem_map.2 ⟨(u, v), hp, rfl⟩

/-- The coverage clause of a boundary cell is in the formula. -/
theorem coverage_clause_mem (ps : List Placement) (bnd : Finset Cell) (b : Cell)
    (hb : b ∈ bnd) : cellVars ps b ∈ buildSatFormula ps bnd := by
  unfold buildSatFormula
  exact List.mem_append.2 (Or.inr (List.mem_map.2 ⟨b, (mem_cellList bnd b).2 hb, rfl⟩))

/-- A satisfying assignment satisfies every clause of the formula. -/
theorem cnfSat_clause (m : ℤ → Bool) (f : List (List ℤ)) (cl : List ℤ)
    (hf : cnfSat m f = true) (hcl : cl ∈ f) : clauseSat m cl = true := by
  unfold cnfSat at hf
  exact List.all_eq_true.1 hf cl hcl

/-- Membership in the extracted placement list. -/
theorem mem_extraction (ps : List Placement) (m : ℤ → Bool) (pl : Placement) :
    pl ∈ ps.enum.filterMap (fun ip => if m ((ip.1 : ℤ) + 1) then some ip.2 else none) ↔
      ∃ i, (i, pl) ∈ ps.enum ∧ m ((i : ℤ) + 1) = true := by
  rw [List.mem_filterMap]
  constructor
  · rintro ⟨ip, hip, hif⟩
    split_ifs at hif with hmv
    · have h2 := Option.some.inj hif
      exact ⟨ip.1, by rw [← h2]; exact hip, hmv⟩
  · rintro ⟨i, hip, hmv⟩
    exact ⟨(i, pl), hip, by rw [if_pos hmv]⟩

/-- Indices in an enumeration start at the offset. -/
theorem mem_enumFrom_le {α : Type} :
    ∀ (l : List α) (n : ℕ) (q : ℕ × α), q ∈ l.enumFrom n → n ≤ q.1 := by
  intro l
  induction l with
  | nil => intro n q h; exact absurd h (List.not_mem_nil q)
  | cons x xs ih =>
      intro n q h
      rcases List.mem_cons.1 h with rfl | h2
      · exact le_refl n
      · exact Nat.le_of_succ_le (ih (n + 1) q h2)

/-- Enumerations are strictly increasing in the index. -/
theorem enumFrom_pairwise_fst {α : Type} :
    ∀ (l : List α) (n : ℕ), (l.enumFrom n).Pairwise (fun a b => a.1 < b.1) := by
  intro l
  induction l with
  | nil => intro n; exact List.Pairwise.nil
  | cons x xs ih =>
      intro n
      refine List.Pairwise.cons ?_ (ih (n + 1))
      intro q hq
      exact Nat.lt_of_succ_le (mem_enumFrom_le xs (n + 1) q hq)

/-- The enumeration with offset zero is strictly increasing. -/
theorem enum_pairwise_fst {α : Type} (l : List α) :
    l.enum.Pairwise (fun a b => a.1 < b.1) := enumFrom_pairwise_fst l 0

/-- The second component of an enumeration entry is a list member. -/
theorem enum_snd_mem {α : Type} (l : List α) (q : ℕ × α) (h : q ∈ l.enum) : q.2 ∈ l := by
  have h1 : q ∈ (List.range l.length).zip l := by
    rw [← List.enum_eq_zip_range]
    exact h
  exact (List.of_mem_zip (show (q.1, q.2) ∈ _ from h1)).2

/-- C1: whenever solve_corona returns a list of placements under a sound
solver oracle, the placements are pairwise disjoint, disjoint from the
occupied set, and together cover every boundary cell. -/
theorem C1_solve_corona_valid (solver : List (List ℤ) → Option (ℤ → Bool))
    (hsound : ∀ f m, solver f = some m → cnfSat m f = true)
    (p : Polyiamond) (occupied bnd : Finset Cell) (res : List Placement)
    (hres : solveCorona solver p occupied bnd = some res) :
    List.Pairwise (fun x y : Placement => Disjoint x.cells y.cells) res ∧
    (∀ pl ∈ res, Disjoint pl.cells occupied) ∧
    (∀ b ∈ bnd, ∃ pl ∈ res, b ∈ pl.cells) := by
  unfold solveCorona at hres
  by_cases hps : findValidPlacements p occupied bnd = []
  · rw [if_pos hps] at hres
    exact absurd hres (by simp)
  rw [if_neg hps] at hres
  by_cases hcov : (findValidPlacements p occupied bnd).foldl
      (fun acc pl => acc ∪ (pl.cells ∩ bnd)) ∅ ≠ bnd
  · rw [if_pos hcov] at hres
    exact absurd hres (by simp)
  rw [if_neg hcov] at hres
  cases hm : solver (buildSatFormula (findValidPlacements p occupied bnd) bnd) with
  | none =>
      rw [hm] at hres
      exact absurd hres (by simp)
  | some m =>
      rw [hm] at hres
      have hres2 := Option.some.inj hres
      have hsat := hsound _ m hm
      have hgood := findValidPlacements_good p occupied bnd
      subst hres2
      refine ⟨?_, ?_, ?_⟩
      · rw [List.pairwise_filterMap]
        apply List.Pairwise.imp_of_mem ?_
          (enum_pairwise_fst (findValidPlacements p occupied bnd))
        intro a b ha hb hij x hx y hy
        rw [Option.mem_def] at hx hy
        by_cases hma : m ((a.1 : ℤ) + 1) = true
        case neg =>
          rw [if_neg hma] at hx
          exact absurd hx (by simp)
        rw [if_pos hma] at hx
        by_cases hmb : m ((b.1 : ℤ) + 1) = true
        case neg =>
          rw [if_neg hmb] at hy
          exact absurd hy (by simp)
        rw [if_pos hmb] at hy
        have hax : a.2 = x := Option.some.inj hx
        have hby : b.2 = y := Option.some.inj hy
        by_contra hdisj
        obtain ⟨c, hcx, hcy⟩ := Finset.not_disjoint_iff.1 hdisj
        have hu : ((a.1 : ℤ) + 1) ∈ cellVars (findValidPlacements p occupied bnd) c :=
          (mem_cellVars _ c _).2 ⟨a.1, a.2, ha, by rw [hax]; exact hcx, rfl⟩
        have hv : ((b.1 : ℤ) + 1) ∈ cellVars (findValidPlacements p occupied bnd) c :=
          (mem_cellVars _ c _).2 ⟨b.1, b.2, hb, by rw [hby]; exact hcy, rfl⟩
        have hcc : c ∈ coveringCells (findValidPlacements p occupied bnd) :=
          (mem_coveringCells _ c).2 ⟨a.2, enum_snd_mem _ a ha, by rw [hax]; exact hcx⟩
        have hne2 : ((a.1 : ℤ) + 1) ≠ ((b.1 : ℤ) + 1) := by
          intro hcon
          omega
        have hclause : [-((a.1 : ℤ) + 1), -((b.1 : ℤ) + 1)]
              ∈ buildSatFormula (findValidPlacements p occupied bnd) bnd ∨
            [-((b.1 : ℤ) + 1), -((a.1 : ℤ) + 1)]
              ∈ buildSatFormula (findValidPlacements p occupied bnd) bnd := by
          rcases listPairs_mem hu hv hne2 with h | h
          · exact Or.inl (overlap_clause_mem _ bnd c _ _ hcc h)
          · exact Or.inr (overlap_clause_mem _ bnd c _ _ hcc h)
        have hfalse : ∀ w : ℤ, 0 < w → litSat m (-w) = true → m w = false := by
          intro w hw hls
          unfold litSat at hls
          rw [if_neg (by omega)] at hls
          simp only [neg_neg, Bool.not_eq_true'] at hls
          exact hls
        rcases hclause with h | h <;>
          (have hcs := cnfSat_clause m _ _ hsat h;
           unfold clauseSat at hcs;
           obtain ⟨lit, hlit, hsl⟩ := List.any_eq_true.1 hcs;
           simp only [List.mem_cons, List.not_mem_nil, or_false] at hlit)
        · rcases hlit with rfl | rfl
          · exact absurd (hfalse _ (by positivity) hsl) (by rw [hma]; simp)
          · exact absurd (hfalse _ (by positivity) hsl) (by rw [hmb]; simp)
        · rcases hlit with rfl | rfl
          · exact absurd (hfalse _ (by positivity) hsl) (by rw [hmb]; simp)
          · exact absurd (hfalse _ (by positivity) hsl) (by rw [hma]; simp)
      · intro pl hpl
        obtain ⟨i, hip, _⟩ := (mem_extraction _ m pl).1 hpl
        exact (hgood.1 pl (enum_snd_mem _ (i, pl) hip)).1
      · intro b hb
        have hcl := coverage_clause_mem (findValidPlacements p occupied bnd) bnd b hb
        have hcs := cnfSat_clause m _ _ hsat hcl
        unfold clauseSat at hcs
        obtain ⟨lit, hlit, hsl⟩ := List.any_eq_true.1 hcs
        obtain ⟨i, pl, hip, hbc, rfl⟩ := (mem_cellVars _ b _).1 hlit
        have hmv : m ((i : ℤ) + 1) = true := by
          unfold litSat at hsl
          rwa [if_pos (by positivity)] at hsl
        exact ⟨pl, (mem_extraction _ m pl).2 ⟨i, hip, hmv⟩, hbc⟩

/-- The all-true assignment. -/
def allTrueAssign : ℤ → Bool := fun _ => true

/-- A trivially sound oracle: return the all-true assignment when it
satisfies the formula. -/
def checkSolver : List (List ℤ) → Option (ℤ → Bool) :=
  fun f => if cnfSat allTrueAssign f then some allTrueAssign else none

/-- The checking oracle is sound. -/
theorem checkSolver_sound : ∀ f m, checkSolver f = some m → cnfSat m f = true := by
  intro f m h
  unfold checkSolver at h
  split_ifs at h with hf
  rw [← Option.some.inj h]
  exact hf

/-- The single up triangle. -/
def wMono : Polyiamond := Polyiamond.ofCells {⟨0, 0⟩}

/-- The corona the checking oracle finds covering the single boundary cell
to the right of the single triangle. -/
def wRes : List Placement :=
  (solveCorona checkSolver wMono {⟨0, 0⟩} {⟨1, 0⟩}).getD []

set_option maxRecDepth 100000 in
/-- Witness for C1: the checking oracle produces a corona of the single
triangle covering the requested boundary cell. -/
theorem C1_solve_corona_valid_witness :
    ∃ pl ∈ wRes, (⟨1, 0⟩ : Cell) ∈ pl.cells :=
  (C1_solve_corona_valid checkSolver checkSolver_sound wMono {(⟨0, 0⟩ : Cell)}
    ({⟨1, 0⟩} : Finset Cell) wRes (by with_unfolding_all rfl)).2.2 ⟨1, 0⟩ (by decide)

/-- Embedding of find_coronas: starting from the occupied set and the list
of coronas found so far, repeatedly take the boundary, attempt a corona,
stop on failure, and otherwise add the corona cells to the occupied set.
The fuel counts the remaining rounds up to max_coronas. -/
def findCoronasAux (solver : List (List ℤ) → Option (ℤ → Bool)) (p : Polyiamond) :
    ℕ → Finset Cell → List (List Placement) → ℕ × List (List Placement)
  | 0, _, coronas => (coronas.length, coronas)
  | k + 1, occupied, coronas =>
      match solveCorona solver p occupied (TriangularGrid.boundary occupied) with
      | none => (coronas.length, coronas)
      | some corona =>
          findCoronasAux solver p k
            (corona.foldl (fun acc pl => acc ∪ pl.cells) occupied) (coronas ++ [corona])

/-- Embedding of find_coronas with cap max_coronas. -/
def findCoronas (solver : List (List ℤ) → Option (ℤ → Bool)) (p : Polyiamond)
    (maxCoronas : ℕ) : ℕ × List (List Placement) :=
  findCoronasAux solver p maxCoronas p.cells []

/-- The occupied region after a list of coronas: the base cells together
with all placement cells of every corona, accumulated in order. -/
def occAfter (p : Polyiamond) (cs : List (List Placement)) : Finset Cell :=
  cs.foldl (fun occ corona => corona.foldl (fun acc pl => acc ∪ pl.cells) occ) p.cells

/-- Appending one corona to the occupied-region fold. -/
theorem occAfter_append (p : Polyiamond) (cs : List (List Placement))
    (corona : List Placement) :
    occAfter p (cs ++ [corona]) =
      corona.foldl (fun acc pl => acc ∪ pl.cells) (occAfter p cs) := by
  unfold occAfter
  rw [List.foldl_append]
  rfl

/-- Invariant of the find_coronas loop: the returned count is the length of
the returned corona list, at most the starting length plus the fuel, and if
the cap was not reached the last corona attempt on the final occupied
region failed. -/
theorem findCoronasAux_spec (solver : List (List ℤ) → Option (ℤ → Bool)) (p : Polyiamond) :
    ∀ (k : ℕ) (cs : List (List Placement)) (hc : ℕ) (res : List (List Placement)),
      findCoronasAux solver p k (occAfter p cs) cs = (hc, res) →
      hc = res.length ∧ res.length ≤ cs.length + k ∧
      (res.length < cs.length + k →
        solveCorona solver p (occAfter p res)
          (TriangularGrid.boundary (occAfter p res)) = none) := by
  intro k
  induction k with
  | zero =>
      intro cs hc res h
      have h2 : (cs.length, cs) = (hc, res) := h
      injection h2 with h3 h4
      subst h3
      subst h4
      exact ⟨rfl, by omega, by omega⟩
  | succ k ih =>
      intro cs hc res h
      simp only [findCoronasAux] at h
      cases hs : solveCorona solver p (occAfter p cs)
          (TriangularGrid.boundary (occAfter p cs)) with
      | none =>
          rw [hs] at h
          have h2 : (cs.length, cs) = (hc, res) := h
          injection h2 with h3 h4
          subst h3
          subst h4
          exact ⟨rfl, by omega, fun _ => hs⟩
      | some corona =>
          rw [hs] at h
          have h2 : findCoronasAux solver p k (occAfter p (cs ++ [corona]))
              (cs ++ [corona]) = (hc, res) := by
            rw [occAfter_append p cs corona]
            exact h
          obtain ⟨e1, e2, e3⟩ := ih (cs ++ [corona]) hc res h2
          have hlen : (cs ++ [corona]).length = cs.length + 1 := by simp
          refine ⟨e1, by omega, ?_⟩
          intro hlt
          exact e3 (by omega)

/-- C3: find_coronas(S, K) returns (hc, coronas) with hc the length of
coronas, hc at most K, and whenever hc < K the corona attempt on round
hc + 1 over the occupied region formed from S and the hc found coronas
returned none; reaching the cap returns hc = K. -/
theorem C3_find_coronas (solver : List (List ℤ) → Option (ℤ → Bool)) (p : Polyiamond)
    (K hc : ℕ) (cs : List (List Placement))
    (h : findCoronas solver p K = (hc, cs)) :
    hc = cs.length ∧ hc ≤ K ∧
    (hc < K → solveCorona solver p (occAfter p cs)
      (TriangularGrid.boundary (occAfter p cs)) = none) := by
  have h2 : findCoronasAux solver p K (occAfter p ([] : List (List Placement))) [] = (hc, cs) := h
  obtain ⟨e1, e2, e3⟩ := findCoronasAux_spec solver p K [] hc cs h2
  simp only [List.length_nil, Nat.zero_add] at e2 e3
  exact ⟨e1, by omega, fun hlt => e3 (by omega)⟩

/-- An oracle that always reports unsatisfiable. -/
def noneSolver : List (List ℤ) → Option (ℤ → Bool) := fun _ => none

set_option maxRecDepth 400000 in
/-- Witness for C3: with the always-unsatisfiable oracle the single
triangle gets zero coronas under cap 3, and round one failed. -/
theorem C3_find_coronas_witness :
    (0 : ℕ) = ([] : List (List Placement)).length ∧ 0 ≤ 3 ∧
    (0 < 3 → solveCorona noneSolver wMono (occAfter wMono [])
      (TriangularGrid.boundary (occAfter wMono [])) = none) :=
  C3_find_coronas noneSolver wMono 3 0 [] (by with_unfolding_all rfl)

/-- An oracle that always answers with the all-false assignment. -/
def falseSolver : List (List ℤ) → Option (ℤ → Bool) := fun _ => some (fun _ => false)

set_option maxRecDepth 400000 in
/-- Under the all-false oracle a corona round on the single triangle
returns the empty placement list. -/
theorem falseSolver_mono_round :
    solveCorona falseSolver wMono wMono.cells (TriangularGrid.boundary wMono.cells) =
      some [] := by
  with_unfolding_all rfl

/-- Under the all-false oracle every round adds an empty corona, so the
loop always runs out of fuel. -/
theorem findCoronasAux_false :
    ∀ (k : ℕ) (cs : List (List Placement)),
      findCoronasAux falseSolver wMono k wMono.cells cs =
        (cs.length + k, cs ++ List.replicate k []) := by
  intro k
  induction k with
  | zero =>
      intro cs
      simp [findCoronasAux]
  | succ k ih =>
      intro cs
      have h1 : findCoronasAux falseSolver wMono (k + 1) wMono.cells cs =
          findCoronasAux falseSolver wMono k wMono.cells (cs ++ [[]]) := by
        simp only [findCoronasAux]
        rw [falseSolver_mono_round]
        rfl
      rw [h1, ih (cs ++ [[]])]
      rw [List.append_assoc]
      have h2 : ([[]] : List (List Placement)) ++ List.replicate k [] =
          List.replicate (k + 1) [] := rfl
      rw [h2]
      have h3 : (cs ++ [[]]).length = cs.length + 1 := by simp
      rw [h3]
      have h4 : cs.length + 1 + k = cs.length + (k + 1) := by omega
      rw [h4]

/-- Embedding of compute_heesch_number with an explicit cap. -/
def computeHeeschNumber (solver : List (List ℤ) → Option (ℤ → Bool)) (p : Polyiamond)
    (maxCoronas : ℕ) : ℕ :=
  (findCoronas solver p maxCoronas).1

/-- The default value of the max_coronas argument in the source. -/
def defaultMaxCoronas : ℕ := 10

/-- compute_heesch_number called without an explicit cap. -/
def computeHeeschNumberDefault (solver : List (List ℤ) → Option (ℤ → Bool))
    (p : Polyiamond) : ℕ :=
  computeHeeschNumber solver p defaultMaxCoronas

/-- C9 counterexample: the default cap is 10, not 5; with the default cap
a run can certify 10 coronas, exceeding 5. -/
theorem C9_counterexample :
    defaultMaxCoronas ≠ 5 ∧
    computeHeeschNumberDefault falseSolver wMono = 10 ∧
    5 < computeHeeschNumberDefault falseSolver wMono := by
  have hval : computeHeeschNumberDefault falseSolver wMono = 10 := by
    show (findCoronasAux falseSolver wMono 10 wMono.cells []).1 = 10
    rw [findCoronasAux_false 10 []]
    rfl
  exact ⟨by decide, hval, by rw [hval]; decide⟩

/-- C9: the default cap max_coronas is 10 in the source, and the reported
Heesch number under the default call never exceeds that cap. -/
theorem C9_amended (solver : List (List ℤ) → Option (ℤ → Bool)) (p : Polyiamond) :
    defaultMaxCoronas = 10 ∧ computeHeeschNumberDefault solver p ≤ defaultMaxCoronas := by
  refine ⟨rfl, ?_⟩
  have heq : findCoronasAux solver p defaultMaxCoronas
      (occAfter p ([] : List (List Placement))) [] =
        ((findCoronas solver p defaultMaxCoronas).1,
          (findCoronas solver p defaultMaxCoronas).2) := rfl
  obtain ⟨e1, e2, e3⟩ := findCoronasAux_spec solver p defaultMaxCoronas [] _ _ heq
  show (findCoronas solver p defaultMaxCoronas).1 ≤ defaultMaxCoronas
  simp only [List.length_nil, Nat.zero_add] at e2
  omega

/-- Candidate extension cells of a shape: neighbors of its cells that are
not already in it, as collected in generate_fixed_polyiamonds. -/
def neighborCandidates (cells : Finset Cell) : Finset Cell :=
  (cells.biUnion (fun c => c.neighbors.toFinset)) \ cells

/-- One growth level of generate_fixed_polyiamonds: extend every shape of
the current level by one candidate neighbor, deduplicating by the sorted
key canonicalize_cells_simple. -/
def levelStep (current : List (Finset Cell)) : List (Finset Cell) :=
  (current.foldl (fun acc cells =>
    (cellList (neighborCandidates cells)).foldl (fun acc2 nb =>
      if cellKey (insert nb cells) ∈ acc2.2 then acc2
      else (acc2.1 ++ [insert nb cells], insert (cellKey (insert nb cells)) acc2.2)) acc)
    (([], ∅) : List (Finset Cell) × Finset (List (ℤ × ℤ)))).1

/-- The growth loop of generate_fixed_polyiamonds. -/
def generateFixedAux : ℕ → List (Finset Cell) → List (Finset Cell)
  | 0, cur => cur
  | k + 1, cur => generateFixedAux k (levelStep cur)

/-- generate_fixed_polyiamonds: grow from the single up triangle at the
origin through n - 1 levels. -/
def generateFixedPolyiamonds (n : ℕ) : List (Finset Cell) :=
  if n = 0 then [] else generateFixedAux (n - 1) [{⟨0, 0⟩}]

/-- generate_polyiamonds with fixed=False: deduplicate the fixed shapes by
their orbit canonical cells, keeping one canonicalized representative per
class, in first-seen order. -/
def generatePolyiamonds (n : ℕ) : List Polyiamond :=
  ((generateFixedPolyiamonds n).foldl (fun acc cells =>
    if (Polyiamond.ofCells cells).canonicalCells ∈ acc.2 then acc
    else (acc.1 ++ [Polyiamond.ofCells (Polyiamond.ofCells cells).canonicalCells],
      insert (Polyiamond.ofCells cells).canonicalCells acc.2))
    (([], ∅) : List Polyiamond × Finset (Finset Cell))).1

/-- The Python min over a list of cell sets, keyed like pyMin. -/
def pyMinCells (l : List (Finset Cell)) : Finset Cell :=
  (pyMin (l.map Polyiamond.mk)).cells

/-- canonical_cells of a canonically positioned polyiamond computed
through the integer orbit entries. -/
theorem canonicalCells_eq_fast (p : Polyiamond) (hp : p.cells = canonicalPosition p.cells) :
    p.canonicalCells = pyMinCells (orbList p.cells) := by
  unfold Polyiamond.canonicalCells Polyiamond.canonicalForm pyMinCells
  apply pyMin_cells_congr _ _ (allTransformations_ne_nil _) (by simp [orbList])
  intro k
  rw [exists_cells_iff, exists_cells_iff, allTransformations_cells p hp]
  rw [List.map_map]
  have hcm : (Polyiamond.cells ∘ Polyiamond.mk) = id := rfl
  rw [hcm, List.map_id]

/-- The integer-only canonical cells of an arbitrary cell set after
construction. -/
def fastFreeCanon (cells : Finset Cell) : Finset Cell :=
  pyMinCells (orbList (canonicalPosition cells))

/-- The constructor followed by canonical_cells equals the integer path. -/
theorem ofCells_canonicalCells_fast (cells : Finset Cell) :
    (Polyiamond.ofCells cells).canonicalCells = fastFreeCanon cells := by
  have hp : (Polyiamond.ofCells cells).cells =
      canonicalPosition (Polyiamond.ofCells cells).cells := by
    show canonicalPosition cells = canonicalPosition (canonicalPosition cells)
    rw [canonicalPosition_idem]
  rw [canonicalCells_eq_fast _ hp]
  rfl

/-- The free generator with the canonical cells computed the fast way. -/
def generatePolyiamondsFast (n : ℕ) : List Polyiamond :=
  ((generateFixedPolyiamonds n).foldl (fun acc cells =>
    if fastFreeCanon cells ∈ acc.2 then acc
    else (acc.1 ++ [Polyiamond.ofCells (fastFreeCanon cells)],
      insert (fastFreeCanon cells) acc.2))
    (([], ∅) : List Polyiamond × Finset (Finset Cell))).1

/-- The two generators agree. -/
theorem generatePolyiamonds_eq_fast (n : ℕ) :
    generatePolyiamonds n = generatePolyiamondsFast n := by
  unfold generatePolyiamonds generatePolyiamondsFast
  have hf : (fun (acc : List Polyiamond × Finset (Finset Cell)) cells =>
      if (Polyiamond.ofCells cells).canonicalCells ∈ acc.2 then acc
      else (acc.1 ++ [Polyiamond.ofCells (Polyiamond.ofCells cells).canonicalCells],
        insert (Polyiamond.ofCells cells).canonicalCells acc.2)) =
      (fun (acc : List Polyiamond × Finset (Finset Cell)) cells =>
      if fastFreeCanon cells ∈ acc.2 then acc
      else (acc.1 ++ [Polyiamond.ofCells (fastFreeCanon cells)],
        insert (fastFreeCanon cells) acc.2)) := by
    funext acc cells
    rw [ofCells_canonicalCells_fast]
  rw [hf]

set_option maxRecDepth 2000000 in
set_option maxHeartbeats 40000000 in
/-- C4 counterexample: generate_polyiamonds(4) returns 3 free 4-iamonds,
not the 4 required by OEIS A000577, so the claimed counts do not hold. -/
theorem C4_counterexample :
    (generatePolyiamonds 4).length = 3 ∧ (generatePolyiamonds 4).length ≠ 4 := by
  have h : (generatePolyiamonds 4).length = 3 := by
    rw [generatePolyiamonds_eq_fast]
    with_unfolding_all rfl
  exact ⟨h, by rw [h]; decide⟩
